import Mathlib

/-!
# crawl: a shallow embedding of `crawl.go`

The Go package `crawl` is a small HTTP fetch client: a domain extractor
(`getDomain`), a proxy list with a cursor (`ProxyList`), a per-domain cookie
store (`CookieSet`) and a client (`NewClient`, `Client.Get`).

Modelling conventions.

* A Go `string` is a sequence of bytes: `GoString = List UInt8`.  `bytes` turns
  a literal into its UTF-8 bytes.
* A Go `int` index is an `Int`; `-1` is the "not found" value of
  `strings.Index` and `strings.LastIndex`, as in the source.  The cursor
  increment `pl.index++` wraps at 64 bits (`wrapInt`).
* A slice is a `List`; the `nil` slice and the empty slice are both `[]`.
  Slices and cookies are values: sharing of a backing array or of a cookie
  between the caller and the store is not modelled.
* A run-time panic (write to a `nil` map, method call on a `nil` `FileInfo`) is
  the result `none` of an `Option`.
* The standard library is modelled by its documented behaviour
  (`strings.Index`, `strings.LastIndex`, `strings.TrimSpace`, `filepath.Base`,
  `bufio.Reader.ReadString`, `filepath.Walk`, `os.Open`); `url.Parse`,
  `http.NewRequest` and `http.Client.Do` are parameters.
* `ProxyList.getProxy` is the sequential embedding of one call.  Concurrent
  callers are modelled apart (`Shared`), as an interleaving of the statements
  of `getProxy` in which `pl.mutex.Lock()` waits while the mutex is held.
-/

namespace Crawl

/-! ## Strings -/

/-- Go strings are byte sequences. -/
abbrev GoString := List UInt8

/-- UTF-8 bytes of a string literal. -/
def bytes (s : String) : GoString := s.toList.flatMap String.utf8EncodeChar

/-- Model of `strings.Index(s, substr)`: the index of the first instance of
`substr` in `s`, or `-1` if `substr` is not present. -/
def Index : GoString → GoString → Int
  | s, substr =>
    if substr.isPrefixOf s then 0
    else match s with
      | [] => -1
      | _ :: t => let r := Index t substr; if r == -1 then -1 else r + 1

/-- Model of `strings.LastIndex(s, substr)`: the index of the last instance of
`substr` in `s`, or `-1` if `substr` is not present. -/
def LastIndex : GoString → GoString → Int
  | [], substr => if substr.isPrefixOf [] then 0 else -1
  | c :: t, substr =>
    let r := LastIndex t substr
    if r != -1 then r + 1 else if substr.isPrefixOf (c :: t) then 0 else -1

/-- One-byte white space of `unicode.IsSpace`: tab, line feed, vertical tab,
form feed, carriage return, space. -/
def isSpace1 (a : UInt8) : Bool :=
  a == 0x09 || a == 0x0A || a == 0x0B || a == 0x0C || a == 0x0D || a == 0x20

/-- Two-byte white space of `unicode.IsSpace`: U+0085 and U+00A0. -/
def isSpace2 (a b : UInt8) : Bool :=
  a == 0xC2 && (b == 0x85 || b == 0xA0)

/-- Three-byte white space of `unicode.IsSpace`: U+1680, U+2000 to U+200A,
U+2028, U+2029, U+202F, U+205F and U+3000. -/
def isSpace3 (a b c : UInt8) : Bool :=
  (a == 0xE1 && b == 0x9A && c == 0x80) ||
  (a == 0xE2 && b == 0x80 &&
    ((0x80 ≤ c && c ≤ 0x8A) || c == 0xA8 || c == 0xA9 || c == 0xAF)) ||
  (a == 0xE2 && b == 0x81 && c == 0x9F) ||
  (a == 0xE3 && b == 0x80 && c == 0x80)

/-- Leading part of `strings.TrimSpace`: drop white-space runes from the
front. -/
def TrimLeftSpace : GoString → GoString
  | [] => []
  | a :: t =>
    if isSpace1 a then TrimLeftSpace t
    else match t with
      | [] => a :: t
      | b :: t2 =>
        if isSpace2 a b then TrimLeftSpace t2
        else match t2 with
          | [] => a :: t
          | c :: t3 => if isSpace3 a b c then TrimLeftSpace t3 else a :: t

/-- Trailing part of `strings.TrimSpace`, on the reversed string: drop
white-space runes, whose bytes now come last byte first. -/
def TrimLeftSpaceRev : GoString → GoString
  | [] => []
  | c :: t =>
    if isSpace1 c then TrimLeftSpaceRev t
    else match t with
      | [] => c :: t
      | b :: t2 =>
        if isSpace2 b c then TrimLeftSpaceRev t2
        else match t2 with
          | [] => c :: t
          | a :: t3 => if isSpace3 a b c then TrimLeftSpaceRev t3 else c :: t

/-- Model of `strings.TrimSpace`: all leading and trailing white space
removed, as defined by Unicode. -/
def TrimSpace (s : GoString) : GoString :=
  (TrimLeftSpaceRev (TrimLeftSpace s).reverse).reverse

/-- Strip the trailing slashes of a path (first loop of `filepath.Base`), on
the reversed path. -/
def dropSlashes : GoString → GoString
  | [] => []
  | a :: t => if a == 0x2F then dropSlashes t else a :: t

/-- Model of `filepath.Base` on Unix: the last element of the path, `.` for the
empty path and `/` for a path of slashes only. -/
def Base (path : GoString) : GoString :=
  if path == [] then bytes "."
  else
    let path := (dropSlashes path.reverse).reverse
    let i := LastIndex path (bytes "/")
    let path := if i != -1 then path.drop (i.toNat + 1) else path
    if path == [] then bytes "/" else path

/-! ## Domain extractor -/

/-- Embedding of `getDomain` (crawl.go, lines 22 to 44). -/
def getDomain (url : GoString) : GoString :=
  let scheme := bytes "http://"
  let i := Index url scheme
  let url := if i != -1 then url.drop scheme.length else url
  let i := Index url (bytes "/")
  let url := if i != -1 then url.take i.toNat else url
  let i := LastIndex url (bytes ".")
  if i == -1 then url else
  let seg := url.take i.toNat
  let i := LastIndex seg (bytes ".")
  if i == -1 then url else
  url.drop (i.toNat + 1)

/-- The labels of a host: the pieces between its `.` bytes. -/
def labels : GoString → List GoString
  | [] => [[]]
  | a :: t =>
    match labels t with
    | [] => [[a]]
    | l :: ls => if a == 0x2E then [] :: l :: ls else (a :: l) :: ls

/-- The documented algorithm of the Domain Extractor, written from the
specification and not from the code: strip a literal `http://` prefix if
present, truncate at the first `/`, then keep the last two `.`-separated
labels (the whole remainder when it has fewer than two `.`). -/
def getDomainSpec (s : GoString) : GoString :=
  let s := if (bytes "http://").isPrefixOf s then s.drop 7 else s
  let s := s.takeWhile (fun b => b != 0x2F)
  let ls := labels s
  if ls.length ≤ 2 then s
  else (bytes ".").intercalate (ls.drop (ls.length - 2))

/-! ## Errors, readers and the file system -/

/-- Go `error` values met in the package: the sentinel `io.EOF`, an error of
the operating system or of a reader, an error made by `errors.New`, and an
error of `url.Parse` or `http.NewRequest`. -/
inductive GoError
  | EOF
  | io (msg : GoString)
  | New (msg : GoString)
  | parse (msg : GoString)
  deriving DecidableEq, Repr

/-- What the reader under a `bufio.Reader` delivers, in order: a byte, or a
read error other than `io.EOF`.  The end of the sequence is `io.EOF`. -/
inductive ReadEvent
  | byte (b : UInt8)
  | fail (msg : GoString)
  deriving DecidableEq, Repr

/-- Events of a file that reads without error and holds the given text. -/
def content (s : String) : List ReadEvent := (bytes s).map ReadEvent.byte

/-- Model of `bufio.Reader.ReadString(delim)`: read up to and including the
first `delim`; when an error comes before `delim`, return the bytes read
before the error and the error itself.  Returns the line, the error and the
rest of the reader. -/
def ReadString : List ReadEvent → UInt8 → (GoString × Option GoError) × List ReadEvent
  | [], _ => (([], some GoError.EOF), [])
  | ReadEvent.fail e :: rest, _ => (([], some (GoError.io e)), rest)
  | ReadEvent.byte b :: rest, delim =>
    if b == delim then (([b], none), rest)
    else match ReadString rest delim with
      | ((l, err), rest2) => ((b :: l, err), rest2)

/-- A call of `ReadString` that does not end in `io.EOF` consumes at least one
event.  Used for the termination of the read loops. -/
theorem ReadString_length (r : List ReadEvent) (delim : UInt8) :
    (ReadString r delim).1.2 = some GoError.EOF ∨
      (ReadString r delim).2.length < r.length := by
  induction r with
  | nil => left; rfl
  | cons e rest ih =>
    cases e with
    | fail m => right; simp [ReadString]
    | byte b =>
      simp only [ReadString]
      split
      · right; simp
      · rcases ih with h | h
        · left; simpa using h
        · right; simp only [List.length_cons]; omega

/-- The lines of a text that end with a newline, each with its newline, in
file order; what follows the last newline is left out. -/
def terminatedLines : GoString → List GoString
  | [] => []
  | b :: t =>
    if b == 0x0A then [b] :: terminatedLines t
    else match terminatedLines t with
      | [] => []
      | l :: ls => (b :: l) :: ls

/-- A directory, or a regular file with what reading it delivers. -/
inductive Entry
  | dir
  | file (r : List ReadEvent)
  deriving DecidableEq, Repr

/-- The part of `os.FileInfo` the package uses. -/
structure FileInfo where
  Name : GoString
  IsDir : Bool
  deriving DecidableEq, Repr

/-- A file system: every directory and regular file with its path, listed in
the lexical order in which `filepath.Walk` visits them. -/
abbrev FileSystem := List (GoString × Entry)

/-- The entry at a path, if there is one. -/
def FileSystem.lookup (fs : FileSystem) (path : GoString) : Option Entry :=
  (fs.find? (fun e => e.1 == path)).map Prod.snd

/-- Model of `os.Open(name)` followed by reads through a `bufio.Reader`: a
path below a regular file and a missing path fail to open; a directory opens
and every read of it fails. -/
def Open (fs : FileSystem) (name : GoString) : Except GoError (List ReadEvent) :=
  match fs.lookup name with
  | none =>
    if fs.any (fun e => e.2 != Entry.dir && (e.1 ++ bytes "/").isPrefixOf name) then
      Except.error (GoError.io (bytes "open " ++ name ++ bytes ": not a directory"))
    else
      Except.error (GoError.io (bytes "open " ++ name ++ bytes ": no such file or directory"))
  | some Entry.dir => Except.ok [ReadEvent.fail (bytes "read " ++ name ++ bytes ": is a directory")]
  | some (Entry.file r) => Except.ok r

/-- The calls `filepath.Walk(root, fn)` makes while `fn` returns `nil`: the
root and everything below it, each with its path and `FileInfo`; a root that
does not exist is visited once with a `nil` `FileInfo`. -/
def visited (fs : FileSystem) (root : GoString) : List (GoString × Option FileInfo) :=
  match fs.lookup root with
  | none => [(root, none)]
  | some _ =>
    (fs.filter (fun e => e.1 == root || (root ++ bytes "/").isPrefixOf e.1)).map
      (fun e => (e.1, some ⟨Base e.1, e.2 == Entry.dir⟩))

/-- Run the walk function over the visited entries, stopping at the first
error it returns. -/
def walkEntries {σ : Type} (fn : σ → GoString → Option FileInfo → Option (σ × Option GoError)) :
    List (GoString × Option FileInfo) → σ → Option (σ × Option GoError)
  | [], s => some (s, none)
  | (path, info) :: rest, s =>
    match fn s path info with
    | none => none
    | some (s2, some err) => some (s2, some err)
    | some (s2, none) => walkEntries fn rest s2

/-- Model of `filepath.Walk(root, fn)` for a walk function that never returns
`filepath.SkipDir`. -/
def Walk {σ : Type} (fs : FileSystem) (root : GoString)
    (fn : σ → GoString → Option FileInfo → Option (σ × Option GoError)) (s : σ) :
    Option (σ × Option GoError) :=
  walkEntries fn (visited fs root) s

/-! ## Proxy rotator -/

/-- Three fields of `url.URL`; the package reads only `Host`. -/
structure URL where
  Scheme : GoString
  Host : GoString
  Path : GoString
  deriving DecidableEq, Repr

/-- Embedding of `ProxyList` (crawl.go, lines 49 to 53), without the mutex. -/
structure ProxyList where
  list : List GoString
  index : Int
  deriving DecidableEq, Repr

/-- The zero value `&ProxyList{}` of `defaultProxyList`. -/
def ProxyList.init : ProxyList := ⟨[], 0⟩

/-- Signed 64-bit wrap-around of a Go `int`. -/
def wrapInt (x : Int) : Int := (x + 2 ^ 63) % 2 ^ 64 - 2 ^ 63

/-- The read loop of `ProxyList.load` (crawl.go, lines 65 to 74). -/
def ProxyList.loadLoop (r : List ReadEvent) (pl : ProxyList) : ProxyList × Option GoError :=
  match h : ReadString r 0x0A with
  | ((_, some err), _) =>
    if err = GoError.EOF then (pl, none) else (pl, some err)
  | ((line, none), rest) =>
    ProxyList.loadLoop rest { pl with list := pl.list ++ [TrimSpace line] }
termination_by r.length
decreasing_by
  have := ReadString_length r 0x0A
  rw [h] at this
  simpa using this

/-- Embedding of `ProxyList.load` (crawl.go, lines 57 to 76): the list
afterwards and the returned error. -/
def ProxyList.load (fs : FileSystem) (pl : ProxyList) (file : GoString) :
    ProxyList × Option GoError :=
  match Open fs file with
  | Except.error err => (pl, some err)
  | Except.ok r => ProxyList.loadLoop r pl

/-- Embedding of `ProxyList.getProxy` (crawl.go, lines 78 to 90): the state
afterwards and the returned pair, `ok none` for `(nil, nil)`. -/
def ProxyList.getProxy (Parse : GoString → Except GoError URL) (pl : ProxyList) :
    ProxyList × Except GoError (Option URL) :=
  match pl.list with
  | [] => (pl, Except.ok none)
  | s :: _ =>
    let index := wrapInt (pl.index + 1)
    let index := if index ≥ (pl.list.length : Int) then 0 else index
    ({ pl with index := index }, (Parse s).map some)

/-- The cursor invariant: the cursor is `0`, or a valid index of the list. -/
def ProxyList.Inv (pl : ProxyList) : Prop :=
  pl.index = 0 ∨ (0 ≤ pl.index ∧ pl.index < (pl.list.length : Int))

/-- An operation on a `ProxyList`: a load of a file, with the file system as it
is at that moment, or a call of `getProxy`. -/
inductive ProxyOp
  | load (fs : FileSystem) (file : GoString)
  | getProxy
  deriving DecidableEq, Repr

/-- The state after one operation. -/
def ProxyList.step (Parse : GoString → Except GoError URL)
    (pl : ProxyList) : ProxyOp → ProxyList
  | ProxyOp.load fs file => (pl.load fs file).1
  | ProxyOp.getProxy => (pl.getProxy Parse).1

/-- The state after a sequence of operations. -/
def ProxyList.run (Parse : GoString → Except GoError URL)
    (pl : ProxyList) (ops : List ProxyOp) : ProxyList :=
  ops.foldl (ProxyList.step Parse) pl

/-- The results of `n` sequential calls of `getProxy`, first call first. -/
def ProxyList.calls (Parse : GoString → Except GoError URL) :
    Nat → ProxyList → List (Except GoError (Option URL))
  | 0, _ => []
  | n + 1, pl => (pl.getProxy Parse).2 :: ProxyList.calls Parse n (pl.getProxy Parse).1

/-! ## Concurrent callers of `getProxy`

Every access of `getProxy` to `pl.list` and `pl.index` happens between
`pl.mutex.Lock()` and the deferred `pl.mutex.Unlock()`, so the callers are free
of data races and Go runs them as an interleaving of their statements.  The
model below is that interleaving: a goroutine takes one statement of
`getProxy` at a time, and `Lock` can only be taken while the mutex is free. -/

/-- Where a goroutine stands in `getProxy` (crawl.go, lines 78 to 90):
`start` before `pl.mutex.Lock()`; `locked` with the mutex held, before the
test of `len(pl.list)`; `nonEmpty` after that test, before `s := pl.list[0]`;
`read s` before `pl.index++`; `bumped s` before the test of the cursor;
`wrapped s` before `return url.Parse(s)`; `done r` after the return, the
deferred `Unlock` included; `panicked` after a run-time panic. -/
inductive Goroutine
  | start
  | locked
  | nonEmpty
  | read (s : GoString)
  | bumped (s : GoString)
  | wrapped (s : GoString)
  | done (r : Except GoError (Option URL))
  | panicked

/-- The state shared by the callers: the proxy list, whether the mutex is
held, and where each goroutine stands. -/
structure Shared where
  pl : ProxyList
  mutex : Bool
  goroutines : List Goroutine

/-- All of `n` goroutines are about to call `getProxy`; the mutex is free. -/
def Shared.init (pl : ProxyList) (n : Nat) : Shared :=
  ⟨pl, false, List.replicate n Goroutine.start⟩

/-- Goroutine `i` takes its next statement of `getProxy`.  A goroutine that
waits for the mutex, has returned or does not exist leaves the state as it
is.  The read `pl.list[0]` panics when the index is out of range; the deferred
`Unlock` runs on return and on panic. -/
def Shared.step (Parse : GoString → Except GoError URL) (st : Shared) (i : Nat) : Shared :=
  match st.goroutines[i]? with
  | none => st
  | some Goroutine.start =>
    if st.mutex then st
    else { st with mutex := true, goroutines := st.goroutines.set i Goroutine.locked }
  | some Goroutine.locked =>
    if st.pl.list.length == 0 then
      { st with mutex := false,
                goroutines := st.goroutines.set i (Goroutine.done (Except.ok none)) }
    else { st with goroutines := st.goroutines.set i Goroutine.nonEmpty }
  | some Goroutine.nonEmpty =>
    match st.pl.list with
    | [] => { st with mutex := false, goroutines := st.goroutines.set i Goroutine.panicked }
    | s :: _ => { st with goroutines := st.goroutines.set i (Goroutine.read s) }
  | some (Goroutine.read s) =>
    { st with pl := { st.pl with index := wrapInt (st.pl.index + 1) },
              goroutines := st.goroutines.set i (Goroutine.bumped s) }
  | some (Goroutine.bumped s) =>
    { st with pl := if st.pl.index ≥ (st.pl.list.length : Int) then { st.pl with index := 0 }
                    else st.pl,
              goroutines := st.goroutines.set i (Goroutine.wrapped s) }
  | some (Goroutine.wrapped s) =>
    { st with mutex := false,
              goroutines := st.goroutines.set i (Goroutine.done ((Parse s).map some)) }
  | some (Goroutine.done _) => st
  | some Goroutine.panicked => st

/-- The state after a schedule: the goroutines take steps in the given
order. -/
def Shared.exec (Parse : GoString → Except GoError URL) (st : Shared) (sched : List Nat) :
    Shared :=
  sched.foldl (Shared.step Parse) st

/-- A goroutine is inside the critical section: it holds the mutex. -/
def Goroutine.inside : Goroutine → Bool
  | Goroutine.locked => true
  | Goroutine.nonEmpty => true
  | Goroutine.read _ => true
  | Goroutine.bumped _ => true
  | Goroutine.wrapped _ => true
  | _ => false

/-- A goroutine is in order for a list whose first entry is `s0`: it has not
panicked, the entry it read is `s0`, and what it returned is the parse of
`s0`. -/
def Goroutine.Good (Parse : GoString → Except GoError URL) (s0 : GoString) :
    Goroutine → Prop
  | Goroutine.read s => s = s0
  | Goroutine.bumped s => s = s0
  | Goroutine.wrapped s => s = s0
  | Goroutine.done r => r = (Parse s0).map some
  | Goroutine.panicked => False
  | _ => True

/-! ## Cookie store -/

/-- The fields of `http.Cookie` the package sets.  The package reads no field
of a cookie, so the other fields are left out. -/
structure Cookie where
  Name : GoString
  Value : GoString
  deriving DecidableEq, Repr

/-- A Go `map[string][]*http.Cookie` that is not `nil`: the entry of each key,
`none` for a key that is not in the map. -/
abbrev CookieMap := GoString → Option (List Cookie)

/-- The map assignment `m[key] = value`. -/
def CookieMap.set (m : CookieMap) (key : GoString) (value : List Cookie) : CookieMap :=
  fun k => if k = key then some value else m k

/-- Embedding of `CookieSet` (crawl.go, lines 96 to 98); `data = none` is the
`nil` map of the zero value `CookieSet{}`. -/
structure CookieSet where
  data : Option CookieMap

/-- The value of `defaultCookieSet` at start: an empty map made by `make`. -/
def CookieSet.init : CookieSet := ⟨some (fun _ => none)⟩

/-- The map read `cs.data[domain]`: the zero value `nil` for a missing key and
for a `nil` map. -/
def CookieSet.get (cs : CookieSet) (domain : GoString) : List Cookie :=
  match cs.data with
  | none => []
  | some m => (m domain).getD []

/-- Embedding of `CookieSet.SetCookies` (crawl.go, lines 100 to 103); `none`
is the panic of an assignment to an entry of a `nil` map. -/
def CookieSet.SetCookies (cs : CookieSet) (u : URL) (cookies : List Cookie) :
    Option CookieSet :=
  let domain := getDomain u.Host
  match cs.data with
  | none => none
  | some m => some ⟨some (m.set domain cookies)⟩

/-- Embedding of `CookieSet.Cookies` (crawl.go, lines 105 to 108). -/
def CookieSet.Cookies (cs : CookieSet) (u : URL) : List Cookie :=
  let domain := getDomain u.Host
  cs.get domain

/-- The read loop of `loadOne` (crawl.go, lines 126 to 146).  As in the source,
the parsing of a line stands inside the branch `err != nil`, after the test
for `io.EOF`. -/
def CookieSet.loadLoop (file dir : GoString) (r : List ReadEvent) (cs : CookieSet) :
    Option (CookieSet × Option GoError) :=
  match h : ReadString r 0x0A with
  | ((line, some err), rest) =>
    if hE : err = GoError.EOF then some (cs, none)
    else
      let i := Index line (bytes "=")
      if i == -1 then some (cs, some (GoError.New (file ++ bytes " format error")))
      else
        let name := TrimSpace (line.take i.toNat)
        let value := TrimSpace (line.drop (i.toNat + 1))
        if name == [] || value == [] then
          some (cs, some (GoError.New (file ++ bytes " format error")))
        else
          let domain := Base dir
          match cs.data with
          | none => none
          | some m =>
            let m := if (m domain).isNone then m.set domain [] else m
            let m := m.set domain ((m domain).getD [] ++ [⟨name, value⟩])
            CookieSet.loadLoop file dir rest ⟨some m⟩
  | ((_, none), rest) => CookieSet.loadLoop file dir rest cs
termination_by r.length
decreasing_by
  all_goals
    have := ReadString_length r 0x0A
    rw [h] at this
    first
      | simpa using this
      | simp_all

/-- Embedding of the walk function `loadOne` (crawl.go, lines 113 to 148).  Its
first parameter, named `dir` in the source, receives the path of the visited
entry from `filepath.Walk`; `none` is the panic of `info.IsDir()` on a `nil`
`FileInfo`. -/
def CookieSet.loadOne (fs : FileSystem) (cs : CookieSet) (dir : GoString)
    (info : Option FileInfo) : Option (CookieSet × Option GoError) :=
  match info with
  | none => none
  | some info =>
    if info.IsDir then some (cs, none)
    else
      let file := dir ++ bytes "/" ++ info.Name
      match Open fs file with
      | Except.error err => some (cs, some err)
      | Except.ok r => CookieSet.loadLoop file dir r cs

/-- Embedding of `CookieSet.load` (crawl.go, lines 110 to 154): the store
afterwards and the returned error. -/
def CookieSet.load (fs : FileSystem) (cs : CookieSet) (dir : GoString) :
    Option (CookieSet × Option GoError) :=
  Walk fs dir (CookieSet.loadOne fs) cs

/-! ## Fetch client -/

/-- The package variable `defaultUserAgent`. -/
def defaultUserAgent : GoString := bytes "fetch"

/-- Embedding of `Options` (crawl.go, lines 159 to 163). -/
structure Options where
  UserAgent : GoString
  ProxyFile : GoString
  CookieDir : GoString
  deriving DecidableEq, Repr

/-- Embedding of `Client` (crawl.go, lines 165 to 168).  `opt` is the address of
the `Options` object the client was built from.  The embedded `http.Client`
always has the proxy function of `defaultProxyList` and the jar
`defaultCookieSet`, so it carries no state of its own. -/
structure Client where
  opt : Nat
  deriving DecidableEq, Repr

/-- The mutable state of the package: the two package-level singletons and the
`Options` objects, by address. -/
structure World where
  defaultProxyList : ProxyList
  defaultCookieSet : CookieSet
  heap : Nat → Options

/-- Embedding of `NewClient` (crawl.go, lines 170 to 192), called with the
address `opt` of an `Options` object: the state afterwards and the returned
client or error; `none` is a panic of the cookie load. -/
def NewClient (fs : FileSystem) (w : World) (opt : Nat) :
    Option (World × Except GoError Client) :=
  let c : Client := ⟨opt⟩
  let r1 : World × Option GoError :=
    if (w.heap opt).ProxyFile != [] then
      let r := w.defaultProxyList.load fs (w.heap opt).ProxyFile
      ({ w with defaultProxyList := r.1 }, r.2)
    else (w, none)
  match r1 with
  | (w1, some err) => some (w1, Except.error err)
  | (w1, none) =>
    let r2 : Option (World × Option GoError) :=
      if (w1.heap opt).CookieDir != [] then
        (w1.defaultCookieSet.load fs (w1.heap opt).CookieDir).map
          (fun r => ({ w1 with defaultCookieSet := r.1 }, r.2))
      else some (w1, none)
    match r2 with
    | none => none
    | some (w2, some err) => some (w2, Except.error err)
    | some (w2, none) =>
      let w3 : World :=
        if (w2.heap opt).UserAgent == [] then
          { w2 with heap := fun a =>
              if a = opt then { w2.heap opt with UserAgent := defaultUserAgent }
              else w2.heap a }
        else w2
      some (w3, Except.ok c)

/-- Embedding of `proxyFunc` (crawl.go, lines 92 to 94): the proxy function of
the transport asks `defaultProxyList`, whatever the request is. -/
def proxyFunc (Parse : GoString → Except GoError URL) (w : World) :
    World × Except GoError (Option URL) :=
  ({ w with defaultProxyList := (w.defaultProxyList.getProxy Parse).1 },
    (w.defaultProxyList.getProxy Parse).2)

/-- The part of `http.Request` the package touches.  `Header` gives the values
stored under a key in canonical form. -/
structure Request where
  Method : GoString
  URL : GoString
  Header : GoString → List GoString

/-- Model of `http.Header.Set` for a key that is already in canonical form, as
`Referer` and `User-Agent` are: the values of the key become the single
value. -/
def Request.setHeader (req : Request) (key value : GoString) : Request :=
  { req with Header := fun k => if k = key then [value] else req.Header k }

/-- Embedding of `Client.Get` (crawl.go, lines 194 to 208).  `NewRequest` stands
for `http.NewRequest` with a `nil` body and `Do` for `c.Do`; the result is the
error of `NewRequest` or what `Do` returns for the request built. -/
def Client.Get {ρ : Type} (NewRequest : GoString → GoString → Except GoError Request)
    (Do : Request → ρ) (w : World) (c : Client) (url referer : GoString) :
    Except GoError ρ :=
  let opt := w.heap c.opt
  match NewRequest (bytes "GET") url with
  | Except.error err => Except.error err
  | Except.ok req =>
    let req := if referer.length > 0 then req.setHeader (bytes "Referer") referer else req
    let req :=
      if opt.UserAgent != [] then req.setHeader (bytes "User-Agent") opt.UserAgent else req
    Except.ok (Do req)

/-! ## Sample inputs -/

/-- A parser that stands for `url.Parse` on host-less references such as `p1`:
the text becomes the path. -/
def parsePath (s : GoString) : Except GoError URL := Except.ok ⟨[], [], s⟩

/-- The file system whose only regular file is `dir/example.com/file`, with the
given events. -/
def cookieTree (r : List ReadEvent) : FileSystem :=
  [(bytes "dir", Entry.dir),
   (bytes "dir/example.com", Entry.dir),
   (bytes "dir/example.com/file", Entry.file r)]

/-- The file system whose only file is `proxies.txt`, with the given text. -/
def proxyFile (s : String) : FileSystem := [(bytes "proxies.txt", Entry.file (content s))]

/-- Load the file `p1`, `p2`, `p3`, then call `getProxy` twice. -/
def sampleOps : List ProxyOp :=
  [ProxyOp.load (proxyFile "p1\np2\np3\n") (bytes "proxies.txt"), ProxyOp.getProxy,
    ProxyOp.getProxy]

/-- A schedule of two goroutines: goroutine 1 asks for the mutex while
goroutine 0 holds it and gets it only after goroutine 0 has returned. -/
def sampleSchedule : List Nat := [0, 1, 0, 0, 1, 0, 0, 0, 1, 1, 1, 1, 1, 1]

/-- A state in which the `Options` object at address 0 has all fields empty
and the one at every other address has the user agent `bot`. -/
def sampleWorld : World :=
  ⟨ProxyList.init, CookieSet.init,
    fun a => if a = 0 then ⟨[], [], []⟩ else ⟨bytes "bot", [], []⟩⟩

/-! ## Theorems: strings and the domain extractor -/

/-- The examples of the Go documentation of `strings.Index`,
`strings.LastIndex`, `strings.TrimSpace` and `filepath.Base`. -/
theorem stdlib_examples :
    Index (bytes "chicken") (bytes "ken") = 4 ∧
    Index (bytes "chicken") (bytes "dmr") = -1 ∧
    Index (bytes "go gopher") (bytes "go") = 0 ∧
    LastIndex (bytes "go gopher") (bytes "go") = 3 ∧
    LastIndex (bytes "go gopher") (bytes "rodent") = -1 ∧
    TrimSpace (bytes " \t\n Hello, Gophers \n\t\r\n") = bytes "Hello, Gophers" ∧
    Base (bytes "/foo/bar/baz.js") = bytes "baz.js" ∧
    Base (bytes "/foo/bar/baz/") = bytes "baz" ∧
    Base (bytes "dev.txt") = bytes "dev.txt" ∧
    Base (bytes "") = bytes "." ∧
    Base (bytes "/") = bytes "/" := by
  decide

theorem bytes_slash : bytes "/" = [47] := by decide
theorem bytes_dot : bytes "." = [46] := by decide
theorem bytes_scheme : bytes "http://" = [104, 116, 116, 112, 58, 47, 47] := by decide

theorem Index_nil (substr : GoString) :
    Index [] substr = if substr.isPrefixOf [] then 0 else -1 := by
  rw [Index]

theorem Index_cons (x : UInt8) (t substr : GoString) :
    Index (x :: t) substr =
      if substr.isPrefixOf (x :: t) then 0
      else if Index t substr = -1 then -1 else Index t substr + 1 := by
  rw [Index]; simp

theorem Index_nonneg_or (s substr : GoString) :
    Index s substr = -1 ∨ 0 ≤ Index s substr := by
  induction s with
  | nil => rw [Index_nil]; split <;> simp
  | cons x t ih =>
    rw [Index_cons]
    split
    · simp
    · split
      · simp
      · rcases ih with h | h
        · contradiction
        · right; omega

/-- A found substring occurs in the string: all its bytes are bytes of the string. -/
theorem Index_found_subset (s substr : GoString) (h : Index s substr ≠ -1) :
    ∀ b ∈ substr, b ∈ s := by
  induction s with
  | nil =>
    rw [Index_nil] at h
    split at h
    · rename_i hp
      have : substr = [] := by simpa using hp
      simp [this]
    · exact absurd rfl h
  | cons x t ih =>
    rw [Index_cons] at h
    by_cases hp : substr.isPrefixOf (x :: t) = true
    · intro b hb
      exact (List.isPrefixOf_iff_prefix.mp hp).subset hb
    · simp only [hp] at h
      by_cases ht : Index t substr = -1
      · simp [ht] at h
      · intro b hb
        exact List.mem_cons_of_mem _ (ih ht b hb)

theorem Index_single_not_mem (s : GoString) (c : UInt8) (h : c ∉ s) :
    Index s [c] = -1 := by
  by_contra hc
  exact h (Index_found_subset s [c] hc c (by simp))

theorem LastIndex_nil (substr : GoString) :
    LastIndex [] substr = if substr.isPrefixOf [] then 0 else -1 := by
  rw [LastIndex]

theorem LastIndex_cons (x : UInt8) (t substr : GoString) :
    LastIndex (x :: t) substr =
      if LastIndex t substr ≠ -1 then LastIndex t substr + 1
      else if substr.isPrefixOf (x :: t) then 0 else -1 := by
  rw [LastIndex]; simp

theorem LastIndex_single_not_mem (s : GoString) (c : UInt8) (h : c ∉ s) :
    LastIndex s [c] = -1 := by
  induction s with
  | nil => rw [LastIndex_nil]; simp
  | cons x t ih =>
    have hx : c ≠ x := fun e => h (by simp [e])
    have ht : c ∉ t := fun m => h (List.mem_cons_of_mem _ m)
    rw [LastIndex_cons, ih ht]
    simp [hx]

theorem LastIndex_single_append (a b : GoString) (c : UInt8) (h : c ∉ b) :
    LastIndex (a ++ c :: b) [c] = (a.length : Int) := by
  induction a with
  | nil =>
    rw [List.nil_append, LastIndex_cons, LastIndex_single_not_mem b c h]
    simp
  | cons x a ih =>
    rw [List.cons_append, LastIndex_cons, ih]
    have : (a.length : Int) ≠ -1 := by omega
    simp [this]

/-- Every string splits at the last occurrence of a byte it contains. -/
theorem exists_last_split (s : GoString) (c : UInt8) (h : c ∈ s) :
    ∃ a b, s = a ++ c :: b ∧ c ∉ b := by
  induction s with
  | nil => simp at h
  | cons x t ih =>
    by_cases ht : c ∈ t
    · obtain ⟨a, b, e, hb⟩ := ih ht
      exact ⟨x :: a, b, by simp [e], hb⟩
    · have hx : c = x := by
        rcases List.mem_cons.mp h with e | m
        · exact e
        · exact absurd m ht
      exact ⟨[], t, by simp [hx], ht⟩

theorem getDomain_no_slash (h : GoString) (hs : (47 : UInt8) ∉ h) :
    getDomain h =
      if LastIndex h [46] = -1 then h
      else if LastIndex (h.take (LastIndex h [46]).toNat) [46] = -1 then h
      else h.drop ((LastIndex (h.take (LastIndex h [46]).toNat) [46]).toNat + 1) := by
  have h1 : Index h (bytes "http://") = -1 := by
    by_contra hc
    exact hs (Index_found_subset h _ hc 47 (by rw [bytes_scheme]; simp))
  have h2 : Index h (bytes "/") = -1 := by
    rw [bytes_slash]; exact Index_single_not_mem h 47 hs
  unfold getDomain
  simp [h1, h2, bytes_dot]

theorem getDomain_two_labels (pre a b : GoString)
    (hs : (47 : UInt8) ∉ pre ++ 46 :: (a ++ 46 :: b))
    (ha : (46 : UInt8) ∉ a) (hb : (46 : UInt8) ∉ b) :
    getDomain (pre ++ 46 :: (a ++ 46 :: b)) = a ++ 46 :: b := by
  rw [getDomain_no_slash _ hs]
  have e1 : pre ++ 46 :: (a ++ 46 :: b) = (pre ++ 46 :: a) ++ 46 :: b := by simp
  have l1 : LastIndex (pre ++ 46 :: (a ++ 46 :: b)) [46] = ((pre ++ 46 :: a).length : Int) := by
    rw [e1]; exact LastIndex_single_append _ b 46 hb
  have t1 : (pre ++ 46 :: (a ++ 46 :: b)).take (pre ++ 46 :: a).length = pre ++ 46 :: a := by
    rw [e1]; exact List.take_left' rfl
  have l2 : LastIndex (pre ++ 46 :: a) [46] = (pre.length : Int) :=
    LastIndex_single_append pre a 46 ha
  rw [l1, Int.toNat_ofNat, t1, l2, Int.toNat_ofNat]
  have n1 : ((pre ++ 46 :: a).length : Int) ≠ -1 := by omega
  have n2 : (pre.length : Int) ≠ -1 := by omega
  rw [if_neg n1, if_neg n2]
  have : pre ++ 46 :: (a ++ 46 :: b) = (pre ++ [46]) ++ (a ++ 46 :: b) := by simp
  rw [this]
  exact List.drop_left' (by simp)

theorem getDomain_one_label (h : GoString) (hs : (47 : UInt8) ∉ h)
    (hc : h.count 46 ≤ 1) : getDomain h = h := by
  rw [getDomain_no_slash _ hs]
  by_cases hm : (46 : UInt8) ∈ h
  · obtain ⟨a, b, e, hb⟩ := exists_last_split h 46 hm
    have ha : (46 : UInt8) ∉ a := by
      intro m
      have c1 : 0 < a.count 46 := List.count_pos_iff.mpr m
      rw [e, List.count_append, List.count_cons_self] at hc
      omega
    have l1 : LastIndex h [46] = (a.length : Int) := by
      rw [e]; exact LastIndex_single_append a b 46 hb
    have t1 : h.take a.length = a := by rw [e]; exact List.take_left' rfl
    rw [l1, Int.toNat_ofNat, t1, LastIndex_single_not_mem a 46 ha]
    have n1 : (a.length : Int) ≠ -1 := by omega
    simp [n1]
  · rw [LastIndex_single_not_mem h 46 hm]; simp

/-- Claim C1: for every host `h` that contains no `/` (byte 47), `getDomain h`
is the last two `.`-separated labels of `h`: it is `h` itself when `h` has no
`.` (byte 46) or exactly one, and otherwise it is the suffix `d` of `h` that
starts right after the second-to-last `.`, that is `h = pre ++ "." ++ d` with
exactly one `.` in `d`. -/
theorem getDomain_last_two_labels (h : GoString) (hs : (47 : UInt8) ∉ h) :
    (h.count 46 ≤ 1 → getDomain h = h) ∧
    (2 ≤ h.count 46 →
      ∃ pre d, h = pre ++ 46 :: d ∧ d.count 46 = 1 ∧ getDomain h = d) := by
  refine ⟨getDomain_one_label h hs, ?_⟩
  intro hc
  have hm : (46 : UInt8) ∈ h := List.count_pos_iff.mp (by omega)
  obtain ⟨s, b, e, hb⟩ := exists_last_split h 46 hm
  have cb : b.count 46 = 0 := List.count_eq_zero_of_not_mem hb
  have hm2 : (46 : UInt8) ∈ s := by
    apply List.count_pos_iff.mp
    rw [e, List.count_append, List.count_cons_self, cb] at hc
    omega
  obtain ⟨pre, a, e2, ha⟩ := exists_last_split s 46 hm2
  have ca : a.count 46 = 0 := List.count_eq_zero_of_not_mem ha
  have e3 : h = pre ++ 46 :: (a ++ 46 :: b) := by rw [e, e2]; simp
  refine ⟨pre, a ++ 46 :: b, e3, ?_, ?_⟩
  · rw [List.count_append, List.count_cons_self, ca, cb]
  · rw [e3]
    exact getDomain_two_labels pre a b (e3 ▸ hs) ha hb

/-- Witness of C1: the hosts `localhost`, `example.com` and `a.b.example.com`
of the claim. -/
theorem getDomain_last_two_labels_witness :
    (47 : UInt8) ∉ bytes "localhost" ∧ (47 : UInt8) ∉ bytes "example.com" ∧
    (47 : UInt8) ∉ bytes "a.b.example.com" ∧
    getDomain (bytes "localhost") = bytes "localhost" ∧
    getDomain (bytes "example.com") = bytes "example.com" ∧
    ∃ pre d, bytes "a.b.example.com" = pre ++ 46 :: d ∧ d.count 46 = 1 ∧
      getDomain (bytes "a.b.example.com") = d ∧ d = bytes "example.com" := by
  refine ⟨by decide, by decide, by decide, ?_, ?_, ?_⟩
  · exact (getDomain_last_two_labels (bytes "localhost") (by decide)).1 (by decide)
  · exact (getDomain_last_two_labels (bytes "example.com") (by decide)).1 (by decide)
  · obtain ⟨pre, d, e, c, g⟩ :=
      (getDomain_last_two_labels (bytes "a.b.example.com") (by decide)).2 (by decide)
    exact ⟨pre, d, e, c, g, by rw [← g]; decide⟩

/-! ## Theorems: cookie store -/

theorem CookieMap.set_same (m : CookieMap) (key : GoString) (value : List Cookie) :
    m.set key value key = some value := by
  simp [CookieMap.set]

theorem CookieSet.Cookies_SetCookies (m : CookieMap) (u : URL) (cookies : List Cookie) :
    ∃ s, CookieSet.SetCookies ⟨some m⟩ u cookies = some s ∧ s.data.isSome = true ∧
      s.Cookies u = cookies := by
  refine ⟨⟨some (m.set (getDomain u.Host) cookies)⟩, rfl, rfl, ?_⟩
  simp [CookieSet.Cookies, CookieSet.get, CookieMap.set_same]

/-- Claim C2: cookie store round trip with replacement.  For every store with
an initialised map `m`, every URL `u` and every cookie sequence `c2`,
`SetCookies(u, c2)` succeeds and `Cookies(u)` afterwards returns exactly `c2`;
this holds also right after an earlier `SetCookies(u, c1)`, and then no cookie
of `c1` that is not in `c2` is returned. -/
theorem CookieSet.round_trip_replace (m : CookieMap) (u : URL) (c1 c2 : List Cookie) :
    (∃ s, CookieSet.SetCookies ⟨some m⟩ u c2 = some s ∧ s.Cookies u = c2) ∧
    (∃ s1 s2, CookieSet.SetCookies ⟨some m⟩ u c1 = some s1 ∧
      s1.SetCookies u c2 = some s2 ∧ s2.Cookies u = c2 ∧
      ∀ c ∈ c1, c ∉ c2 → c ∉ s2.Cookies u) := by
  constructor
  · obtain ⟨s, h1, _, h2⟩ := CookieSet.Cookies_SetCookies m u c2
    exact ⟨s, h1, h2⟩
  · obtain ⟨s2, h1, _, h2⟩ :=
      CookieSet.Cookies_SetCookies (m.set (getDomain u.Host) c1) u c2
    refine ⟨⟨some (m.set (getDomain u.Host) c1)⟩, s2, rfl, h1, h2, ?_⟩
    intro c _ hc
    rw [h2]
    exact hc

/-! ## Theorems: proxy rotator -/

theorem ProxyList.loadLoop_eof (r : List ReadEvent) (pl : ProxyList) (l : GoString)
    (rest : List ReadEvent) (h : ReadString r 0x0A = ((l, some GoError.EOF), rest)) :
    ProxyList.loadLoop r pl = (pl, none) := by
  rw [ProxyList.loadLoop]
  split <;> simp_all

theorem ProxyList.loadLoop_err (r : List ReadEvent) (pl : ProxyList) (l : GoString)
    (err : GoError) (rest : List ReadEvent)
    (h : ReadString r 0x0A = ((l, some err), rest)) (he : err ≠ GoError.EOF) :
    ProxyList.loadLoop r pl = (pl, some err) := by
  rw [ProxyList.loadLoop]
  split <;> simp_all

theorem ProxyList.loadLoop_line (r : List ReadEvent) (pl : ProxyList) (line : GoString)
    (rest : List ReadEvent) (h : ReadString r 0x0A = ((line, none), rest)) :
    ProxyList.loadLoop r pl =
      ProxyList.loadLoop rest { pl with list := pl.list ++ [TrimSpace line] } := by
  rw [ProxyList.loadLoop]
  split <;> simp_all

theorem ProxyList.loadLoop_appends (r : List ReadEvent) (pl : ProxyList) :
    ∃ extra, (ProxyList.loadLoop r pl).1 = ⟨pl.list ++ extra, pl.index⟩ := by
  induction r, pl using ProxyList.loadLoop.induct with
  | case1 r pl line rest h =>
    rw [ProxyList.loadLoop_eof r pl line rest h]
    exact ⟨[], by simp⟩
  | case2 r pl line err rest h he =>
    rw [ProxyList.loadLoop_err r pl line err rest h he]
    exact ⟨[], by simp⟩
  | case3 r pl line rest h ih =>
    rw [ProxyList.loadLoop_line r pl line rest h]
    obtain ⟨extra, e⟩ := ih
    exact ⟨TrimSpace line :: extra, by rw [e]; simp⟩

theorem ProxyList.load_appends (fs : FileSystem) (pl : ProxyList) (file : GoString) :
    ∃ extra, (pl.load fs file).1 = ⟨pl.list ++ extra, pl.index⟩ := by
  unfold ProxyList.load
  split
  · exact ⟨[], by simp⟩
  · exact ProxyList.loadLoop_appends _ pl

theorem ProxyList.getProxy_list (Parse : GoString → Except GoError URL) (pl : ProxyList) :
    (pl.getProxy Parse).1.list = pl.list := by
  unfold ProxyList.getProxy
  split <;> rfl

/-- One step never shortens the list. -/
theorem ProxyList.step_length (Parse : GoString → Except GoError URL)
    (pl : ProxyList) (op : ProxyOp) :
    pl.list.length ≤ (pl.step Parse op).list.length := by
  cases op with
  | load fs file =>
    obtain ⟨extra, e⟩ := ProxyList.load_appends fs pl file
    simp [ProxyList.step, e]
  | getProxy => simp [ProxyList.step, ProxyList.getProxy_list]

theorem wrapInt_small (x : Int) (h0 : 0 ≤ x) (h1 : x < 2 ^ 63) : wrapInt x = x := by
  unfold wrapInt
  omega

theorem ProxyList.step_inv (Parse : GoString → Except GoError URL)
    (pl : ProxyList) (op : ProxyOp) (hinv : pl.Inv)
    (hlen : (pl.step Parse op).list.length < 2 ^ 63) : (pl.step Parse op).Inv := by
  cases op with
  | load fs file =>
    obtain ⟨extra, e⟩ := ProxyList.load_appends fs pl file
    simp only [ProxyList.step, e, ProxyList.Inv, List.length_append] at *
    rcases hinv with h | ⟨h0, h1⟩
    · left; exact h
    · right; constructor
      · exact h0
      · push_cast; omega
  | getProxy =>
    simp only [ProxyList.step] at *
    unfold ProxyList.getProxy at *
    cases hl : pl.list with
    | nil => simpa [hl] using hinv
    | cons s t =>
      simp only [hl, ProxyList.Inv, List.length_cons] at *
      have hw : wrapInt (pl.index + 1) = pl.index + 1 := by
        apply wrapInt_small
        · rcases hinv with h | ⟨h0, _⟩ <;> omega
        · rcases hinv with h | ⟨_, h1⟩
          · rw [h]; norm_num
          · have : ((t.length + 1 : Nat) : Int) < 2 ^ 63 := by exact_mod_cast hlen
            push_cast at this h1
            omega
      rw [hw]
      split
      · left; rfl
      · right
        rcases hinv with h | ⟨h0, _⟩ <;> constructor <;> push_cast at * <;> omega

/-- The cursor invariant is kept along every run whose list fits a Go slice. -/
theorem ProxyList.run_inv (Parse : GoString → Except GoError URL)
    (ops : List ProxyOp) :
    (ProxyList.run Parse ProxyList.init ops).list.length < 2 ^ 63 →
      (ProxyList.run Parse ProxyList.init ops).Inv := by
  induction ops using List.reverseRecOn with
  | nil => intro _; left; rfl
  | append_singleton ops op ih =>
    intro hlen
    have e : ProxyList.run Parse ProxyList.init (ops ++ [op]) =
        (ProxyList.run Parse ProxyList.init ops).step Parse op := by
      simp [ProxyList.run, List.foldl_append]
    rw [e] at hlen ⊢
    have hmono := ProxyList.step_length Parse (ProxyList.run Parse ProxyList.init ops) op
    exact ProxyList.step_inv Parse _ op (ih (by omega)) hlen

/-- Loading the file `p1`, `p2`, `p3`, one per line, each ended by a newline. -/
theorem ProxyList.load_sample :
    ProxyList.init.load (proxyFile "p1\np2\np3\n") (bytes "proxies.txt") =
      (⟨[bytes "p1", bytes "p2", bytes "p3"], 0⟩, none) := by
  have e : Open (proxyFile "p1\np2\np3\n") (bytes "proxies.txt") =
      Except.ok [ReadEvent.byte 112, ReadEvent.byte 49, ReadEvent.byte 10,
        ReadEvent.byte 112, ReadEvent.byte 50, ReadEvent.byte 10,
        ReadEvent.byte 112, ReadEvent.byte 51, ReadEvent.byte 10] := rfl
  unfold ProxyList.load
  rw [e]
  simp [ProxyList.loadLoop, ReadString, ProxyList.init]
  decide

/-- Claim C4: for every `ProxyList` with an empty list, whatever its cursor,
`getProxy` returns no proxy and no error, `(nil, nil)`, and leaves the list and
the cursor as they were. -/
theorem ProxyList.getProxy_empty (Parse : GoString → Except GoError URL) (index : Int) :
    ProxyList.getProxy Parse ⟨[], index⟩ = (⟨[], index⟩, Except.ok none) := by
  rfl

/-- Claim C5: cursor invariant.  In every state reached from the initial state
(empty list, cursor 0) by a finite sequence of `load` and `getProxy`
operations, whatever the files hold at each load and whatever `url.Parse`
returns, a non-empty list has `0 ≤ index < len(list)`.  The hypothesis `hlen`
says that the length of the list fits a Go `int`, as the length of every Go
slice does; it is needed because `pl.index++` is modelled with its 64-bit
wrap-around. -/
theorem ProxyList.cursor_invariant
    (Parse : GoString → Except GoError URL) (ops : List ProxyOp)
    (hlen : (ProxyList.run Parse ProxyList.init ops).list.length < 2 ^ 63)
    (hne : (ProxyList.run Parse ProxyList.init ops).list ≠ []) :
    0 ≤ (ProxyList.run Parse ProxyList.init ops).index ∧
      (ProxyList.run Parse ProxyList.init ops).index <
        ((ProxyList.run Parse ProxyList.init ops).list.length : Int) := by
  have hpos : 0 < (ProxyList.run Parse ProxyList.init ops).list.length :=
    List.length_pos.mpr hne
  rcases ProxyList.run_inv Parse ops hlen with h | h
  · rw [h]; constructor
    · exact le_refl 0
    · exact_mod_cast hpos
  · exact h

/-- The state after loading `p1`, `p2`, `p3` and calling `getProxy` twice. -/
theorem ProxyList.run_sample :
    ProxyList.run parsePath ProxyList.init sampleOps =
      ⟨[bytes "p1", bytes "p2", bytes "p3"], 2⟩ := by
  simp only [ProxyList.run, sampleOps, List.foldl, ProxyList.step, ProxyList.load_sample]
  rfl

/-- Witness of C5: after loading three proxies and two calls of `getProxy` the
cursor is 2, inside the list of length 3. -/
theorem ProxyList.cursor_invariant_witness :
    (ProxyList.run parsePath ProxyList.init sampleOps).list.length
      < 2 ^ 63 ∧
    (ProxyList.run parsePath ProxyList.init sampleOps).list ≠ [] ∧
    0 ≤ (ProxyList.run parsePath ProxyList.init sampleOps).index ∧
    (ProxyList.run parsePath ProxyList.init sampleOps).index <
      ((ProxyList.run parsePath ProxyList.init sampleOps).list.length
        : Int) :=
  have hlen : (ProxyList.run parsePath ProxyList.init sampleOps).list.length
      < 2 ^ 63 := by
    rw [ProxyList.run_sample]; simp
  have hne : (ProxyList.run parsePath ProxyList.init sampleOps).list ≠ [] := by
    rw [ProxyList.run_sample]; simp
  ⟨hlen, hne, ProxyList.cursor_invariant parsePath sampleOps hlen hne⟩

/-- A call of `getProxy` on a non-empty list returns the parse of the first
entry, whatever the cursor is. -/
theorem ProxyList.getProxy_cons (Parse : GoString → Except GoError URL) (s : GoString)
    (t : List GoString) (index : Int) :
    (ProxyList.getProxy Parse ⟨s :: t, index⟩).2 = (Parse s).map some ∧
      (ProxyList.getProxy Parse ⟨s :: t, index⟩).1.list = s :: t := by
  constructor <;> rfl

/-- Claim C3, evaluated on its own witness: after the load of the lines `p1`,
`p2`, `p3` the list holds the three entries and the cursor is 0, and three
sequential calls of `getProxy` return the parse of `p1` three times, whatever
`url.Parse` is; with a parser that tells the entries apart this is not the
round-robin sequence `p1`, `p2`, `p3` of the claim. -/
theorem ProxyList.getProxy_repeats_first :
    (ProxyList.init.load (proxyFile "p1\np2\np3\n") (bytes "proxies.txt")).1 =
      ⟨[bytes "p1", bytes "p2", bytes "p3"], 0⟩ ∧
    (∀ Parse : GoString → Except GoError URL,
      ProxyList.calls Parse 3 ⟨[bytes "p1", bytes "p2", bytes "p3"], 0⟩ =
        [(Parse (bytes "p1")).map some, (Parse (bytes "p1")).map some,
          (Parse (bytes "p1")).map some]) ∧
    ProxyList.calls parsePath 3 ⟨[bytes "p1", bytes "p2", bytes "p3"], 0⟩ ≠
      [(parsePath (bytes "p1")).map some, (parsePath (bytes "p2")).map some,
        (parsePath (bytes "p3")).map some] := by
  refine ⟨by rw [ProxyList.load_sample], fun Parse => rfl, ?_⟩
  intro h
  have h2 := congrArg (fun l => l.map (fun r => r.toOption)) h
  revert h2
  decide

/-- On a reader that never fails, `ReadString` returns the first
newline-terminated line, or at the end the unterminated rest with `io.EOF`. -/
theorem ReadString_terminatedLines (bs : GoString) :
    (terminatedLines bs = [] ∧
      ReadString (bs.map ReadEvent.byte) 0x0A = ((bs, some GoError.EOF), [])) ∨
    (∃ (l : GoString) (ls : List GoString) (bs2 : GoString),
      terminatedLines bs = l :: ls ∧
      ReadString (bs.map ReadEvent.byte) 0x0A = ((l, none), bs2.map ReadEvent.byte) ∧
      terminatedLines bs2 = ls ∧ bs2.length < bs.length) := by
  induction bs with
  | nil => left; exact ⟨rfl, rfl⟩
  | cons b t ih =>
    by_cases hb : (b == 0x0A) = true
    · right
      refine ⟨[b], terminatedLines t, t, ?_, ?_, rfl, by simp⟩
      · simp [terminatedLines, hb]
      · simp [ReadString, hb]
    · rcases ih with ⟨e1, e2⟩ | ⟨l, ls, bs2, e1, e2, e3, hl⟩
      · left
        constructor
        · simp [terminatedLines, hb, e1]
        · simp [ReadString, hb, e2]
      · right
        refine ⟨b :: l, ls, bs2, ?_, ?_, e3, by simp only [List.length_cons]; omega⟩
        · simp [terminatedLines, hb, e1]
        · simp [ReadString, hb, e2]

/-- The read loop of `ProxyList.load` on a file that reads without error:
no error, and the trimmed text of every newline-terminated line is appended, in
file order; what follows the last newline is not appended. -/
theorem ProxyList.loadLoop_readable (bs : GoString) (pl : ProxyList) :
    ProxyList.loadLoop (bs.map ReadEvent.byte) pl =
      (⟨pl.list ++ (terminatedLines bs).map TrimSpace, pl.index⟩, none) := by
  generalize hn : bs.length = n
  induction n using Nat.strong_induction_on generalizing bs pl with
  | _ n ih =>
    rcases ReadString_terminatedLines bs with ⟨e1, e2⟩ | ⟨l, ls, bs2, e1, e2, e3, hl⟩
    · rw [ProxyList.loadLoop_eof _ pl bs [] e2, e1]
      simp
    · rw [ProxyList.loadLoop_line _ pl l _ e2, ih bs2.length (by omega) bs2 _ rfl, e1, e3]
      simp

/-- Claim C8, evaluated at a file whose last line has no newline: the load of
the text `p1`, `p2`, `p3` with no final newline returns no error and appends
only `p1` and `p2`, so the last line is lost; the same text with a final
newline appends all three entries. -/
theorem ProxyList.load_drops_unterminated_line :
    ProxyList.init.load (proxyFile "p1\np2\np3") (bytes "proxies.txt") =
      (⟨[bytes "p1", bytes "p2"], 0⟩, none) ∧
    ProxyList.init.load (proxyFile "p1\np2\np3\n") (bytes "proxies.txt") =
      (⟨[bytes "p1", bytes "p2", bytes "p3"], 0⟩, none) := by
  refine ⟨?_, ProxyList.load_sample⟩
  have e : Open (proxyFile "p1\np2\np3") (bytes "proxies.txt") =
      Except.ok [ReadEvent.byte 112, ReadEvent.byte 49, ReadEvent.byte 10,
        ReadEvent.byte 112, ReadEvent.byte 50, ReadEvent.byte 10,
        ReadEvent.byte 112, ReadEvent.byte 51] := rfl
  unfold ProxyList.load
  rw [e]
  simp [ProxyList.loadLoop, ReadString, ProxyList.init]
  decide

/-! ## Theorems: cookie directory load -/

set_option maxRecDepth 100000 in
/-- Whatever the file `dir/example.com/file` holds, the walk function opens the
path `dir/example.com/file/file`, which lies below a regular file, and the
load returns that error with the store as it was. -/
theorem CookieSet.load_cookieTree (r : List ReadEvent) (cs : CookieSet) :
    CookieSet.load (cookieTree r) cs (bytes "dir") =
      some (cs, some (GoError.io
        (bytes "open dir/example.com/file/file: not a directory"))) := by
  rfl

/-- On a reader that never fails, `ReadString` returns a line and a reader that
never fails and is shorter, or it returns `io.EOF`. -/
theorem ReadString_bytes (bs : GoString) (delim : UInt8) :
    (∃ (l : GoString) (bs2 : GoString), ReadString (bs.map ReadEvent.byte) delim = ((l, none), bs2.map ReadEvent.byte) ∧
      bs2.length < bs.length) ∨
    (∃ l, ReadString (bs.map ReadEvent.byte) delim = ((l, some GoError.EOF), [])) := by
  induction bs with
  | nil => right; exact ⟨[], rfl⟩
  | cons b t ih =>
    simp only [List.map_cons, ReadString]
    by_cases hb : (b == delim) = true
    · left
      exact ⟨[b], t, by simp [hb], by simp⟩
    · rcases ih with ⟨l, bs2, e, hl⟩ | ⟨l, e⟩
      · left
        exact ⟨b :: l, bs2, by simp [hb, e], by simp only [List.length_cons]; omega⟩
      · right
        exact ⟨b :: l, by simp [hb, e]⟩

theorem CookieSet.cookieLoop_eof (file dir : GoString) (r : List ReadEvent) (cs : CookieSet)
    (l : GoString) (rest : List ReadEvent)
    (h : ReadString r 0x0A = ((l, some GoError.EOF), rest)) :
    CookieSet.loadLoop file dir r cs = some (cs, none) := by
  rw [CookieSet.loadLoop]
  split <;> simp_all

theorem CookieSet.cookieLoop_line (file dir : GoString) (r : List ReadEvent) (cs : CookieSet)
    (l : GoString) (rest : List ReadEvent) (h : ReadString r 0x0A = ((l, none), rest)) :
    CookieSet.loadLoop file dir r cs = CookieSet.loadLoop file dir rest cs := by
  rw [CookieSet.loadLoop]
  split <;> simp_all

/-- The read loop on a file that reads without error: every line is skipped,
whatever it holds, nothing is stored and no error is returned. -/
theorem CookieSet.loadLoop_skips (file dir : GoString) (cs : CookieSet) (bs : GoString) :
    CookieSet.loadLoop file dir (bs.map ReadEvent.byte) cs = some (cs, none) := by
  generalize hn : bs.length = n
  induction n using Nat.strong_induction_on generalizing bs with
  | _ n ih =>
    rcases ReadString_bytes bs 0x0A with ⟨l, bs2, e, hl⟩ | ⟨l, e⟩
    · rw [CookieSet.cookieLoop_line file dir _ cs l _ e]
      exact ih bs2.length (by omega) bs2 rfl
    · exact CookieSet.cookieLoop_eof file dir _ cs l _ e

/-- Claim C6, evaluated on its own witness `dir/example.com/file` holding the
line `sid = abc123`: the load does not succeed but returns the error of
opening `dir/example.com/file/file`, and no cookie is stored for
`example.com`.  With the right file path too, the read loop stores nothing:
it skips every line that was read without error. -/
theorem CookieSet.load_stores_nothing :
    CookieSet.load (cookieTree (content "sid = abc123\n")) CookieSet.init (bytes "dir") =
      some (CookieSet.init, some (GoError.io
        (bytes "open dir/example.com/file/file: not a directory"))) ∧
    CookieSet.init.get (bytes "example.com") = [] ∧
    CookieSet.loadLoop (bytes "dir/example.com/file") (bytes "dir/example.com")
        (content "sid = abc123\n") CookieSet.init = some (CookieSet.init, none) := by
  refine ⟨CookieSet.load_cookieTree _ _, rfl, ?_⟩
  exact CookieSet.loadLoop_skips _ _ _ (bytes "sid = abc123\n")

/-- Claim C7, evaluated at the file `dir/example.com/file` holding the line
`novalue`: the load returns the error of opening `dir/example.com/file/file`,
which is not the format error of the claim.  With the right file path the read
loop returns no error at all: the line was read without error, so it is
skipped and never parsed. -/
theorem CookieSet.load_no_format_error :
    CookieSet.load (cookieTree (content "novalue\n")) CookieSet.init (bytes "dir") =
      some (CookieSet.init, some (GoError.io
        (bytes "open dir/example.com/file/file: not a directory"))) ∧
    GoError.io (bytes "open dir/example.com/file/file: not a directory") ≠
      GoError.New (bytes "dir/example.com/file" ++ bytes " format error") ∧
    CookieSet.loadLoop (bytes "dir/example.com/file") (bytes "dir/example.com")
        (content "novalue\n") CookieSet.init = some (CookieSet.init, none) := by
  refine ⟨CookieSet.load_cookieTree _ _, by decide, ?_⟩
  exact CookieSet.loadLoop_skips _ _ _ (bytes "novalue\n")

/-! ## Theorems: the documented algorithm of the domain extractor -/

theorem Index_of_isPrefixOf (s substr : GoString) (h : substr.isPrefixOf s = true) :
    Index s substr = 0 := by
  cases s with
  | nil => rw [Index_nil]; simp [h]
  | cons x t => rw [Index_cons]; simp [h]

/-- Cutting at the index of the first `c` keeps the bytes before the first
`c`; without a `c` everything is kept. -/
theorem Index_single_takeWhile (u : GoString) (c : UInt8) :
    (if Index u [c] ≠ -1 then u.take (Index u [c]).toNat else u) =
      u.takeWhile (fun b => b != c) := by
  induction u with
  | nil => rw [Index_nil]; simp
  | cons x t ih =>
    rw [Index_cons]
    by_cases hx : c = x
    · subst hx
      simp
    · have hx2 : x ≠ c := fun e => hx e.symm
      have hp : List.isPrefixOf [c] (x :: t) = false := by simp [List.isPrefixOf, hx]
      rcases Index_nonneg_or t [c] with h | h
      · rw [h] at ih
        simp only [ne_eq, not_true_eq_false, if_false] at ih
        simp [hp, h, hx2]
        exact ih
      · have hne : Index t [c] ≠ -1 := by omega
        rw [if_pos hne] at ih
        have e : (Index t [c] + 1).toNat = (Index t [c]).toNat + 1 := by omega
        have hne2 : Index t [c] + 1 ≠ -1 := by omega
        simp [hp, hne, hx2, hne2, e, ih]

theorem not_mem_takeWhile_ne (u : GoString) (c : UInt8) :
    c ∉ u.takeWhile (fun b => b != c) := by
  intro h
  have := List.mem_takeWhile_imp h
  simp at this

/-- After the first two steps of `getDomain` the rest of the function works on
a string without `/`: `getDomain` gives the same on that string. -/
theorem getDomain_eq_cut (s : GoString) :
    getDomain s =
      getDomain ((if Index s (bytes "http://") ≠ -1 then s.drop 7 else s).takeWhile
        (fun b => b != 47)) := by
  rw [getDomain_no_slash _ (not_mem_takeWhile_ne _ 47)]
  rw [← Index_single_takeWhile]
  unfold getDomain
  simp only [bytes_slash, bytes_dot, bytes_scheme]
  simp

theorem labels_ne_nil (v : GoString) : labels v ≠ [] := by
  cases v with
  | nil => simp [labels]
  | cons a t =>
    rw [labels]
    split
    · simp
    · split <;> simp

theorem labels_length (v : GoString) : (labels v).length = v.count 46 + 1 := by
  induction v with
  | nil => simp [labels]
  | cons a t ih =>
    rw [labels]
    split
    · rename_i h; exact absurd h (labels_ne_nil t)
    · rename_i l ls h
      rw [h] at ih
      by_cases ha : a = 46
      · subst ha
        simp [List.count_cons_self] at ih ⊢
        omega
      · have : (46 : UInt8) ≠ a := fun e => ha e.symm
        simp [ha, List.count_cons_of_ne this] at ih ⊢
        omega

theorem labels_no_dot (a : GoString) (h : (46 : UInt8) ∉ a) : labels a = [a] := by
  induction a with
  | nil => rfl
  | cons x t ih =>
    have hx : x ≠ 46 := fun e => h (by simp [e])
    have ht : (46 : UInt8) ∉ t := fun m => h (List.mem_cons_of_mem _ m)
    rw [labels, ih ht]
    simp [hx]

theorem labels_append (x y : GoString) :
    labels (x ++ 46 :: y) = labels x ++ labels y := by
  induction x with
  | nil =>
    cases hy : labels y with
    | nil => exact absurd hy (labels_ne_nil y)
    | cons l ls => simp [labels, hy]
  | cons c x ih =>
    rw [List.cons_append, labels, ih]
    cases hx : labels x with
    | nil => exact absurd hx (labels_ne_nil x)
    | cons l ls =>
      rw [labels, hx]
      by_cases hc : c = 46 <;> simp [hc]

/-- On a string without `/` the code and the documented last step agree: both
keep the last two labels. -/
theorem getDomain_eq_labels (v : GoString) (hs : (47 : UInt8) ∉ v) :
    getDomain v =
      if (labels v).length ≤ 2 then v
      else (bytes ".").intercalate ((labels v).drop ((labels v).length - 2)) := by
  by_cases hc : v.count 46 ≤ 1
  · rw [getDomain_one_label v hs hc, if_pos (by rw [labels_length]; omega)]
  · rw [if_neg (by rw [labels_length]; omega)]
    have hm : (46 : UInt8) ∈ v := List.count_pos_iff.mp (by omega)
    obtain ⟨s, b, e, hb⟩ := exists_last_split v 46 hm
    have cb : b.count 46 = 0 := List.count_eq_zero_of_not_mem hb
    have hm2 : (46 : UInt8) ∈ s := by
      apply List.count_pos_iff.mp
      rw [e, List.count_append, List.count_cons_self, cb] at hc
      omega
    obtain ⟨pre, a, e2, ha⟩ := exists_last_split s 46 hm2
    have e3 : v = pre ++ 46 :: (a ++ 46 :: b) := by rw [e, e2]; simp
    have hl : labels v = labels pre ++ [a, b] := by
      rw [e3, labels_append, labels_append, labels_no_dot a ha, labels_no_dot b hb]
      rfl
    rw [hl]
    have hd : (labels pre ++ [a, b]).drop ((labels pre ++ [a, b]).length - 2) = [a, b] := by
      apply List.drop_left'
      simp
    rw [hd, e3, getDomain_two_labels pre a b (e3 ▸ hs) ha hb, bytes_dot]
    simp [List.intercalate]

/-- Where `http://` does not occur, or the string begins with it, `getDomain`
computes the documented algorithm. -/
theorem getDomain_eq_spec (s : GoString)
    (h : Index s (bytes "http://") = -1 ∨ (bytes "http://").isPrefixOf s = true) :
    getDomain s = getDomainSpec s := by
  have hstrip : (if Index s (bytes "http://") ≠ -1 then s.drop 7 else s) =
      (if (bytes "http://").isPrefixOf s then s.drop 7 else s) := by
    rcases h with h | h
    · have hp : (bytes "http://").isPrefixOf s = false := by
        by_contra hc
        have := Index_of_isPrefixOf s _ (by simpa using hc)
        omega
      simp [h, hp]
    · simp [Index_of_isPrefixOf s _ h, h]
  rw [getDomain_eq_cut, hstrip, getDomain_eq_labels _ (not_mem_takeWhile_ne _ 47)]
  rfl

set_option maxRecDepth 100000 in
/-- Claim C9, evaluated at a host with a path that holds `http://` further on:
`getDomain` drops the first seven bytes although the input does not begin
with `http://` and returns `mple.com`, where the documented algorithm returns
`example.com`.  On the witness of the claim both return `example.com`. -/
theorem getDomain_strips_without_scheme :
    getDomain (bytes "www.example.com/redirect?to=http://other.org") = bytes "mple.com" ∧
    getDomainSpec (bytes "www.example.com/redirect?to=http://other.org") =
      bytes "example.com" ∧
    getDomain (bytes "http://a.b.example.com/path") = bytes "example.com" ∧
    getDomainSpec (bytes "http://a.b.example.com/path") = bytes "example.com" := by
  decide

/-! ## Theorems: fetch client -/

/-- Claim C10: user agent on every request.  For every state and every
`Options` object with empty `ProxyFile` and empty `CookieDir`, `NewClient`
succeeds, and for every URL and referer for which `http.NewRequest` returns a
request, `Get` on the resulting client, in the state `NewClient` leaves, passes
to `Do` a request whose `User-Agent` header is the configured `UserAgent` when
that was non-empty and the fallback `fetch` when it was empty. -/
theorem NewClient_Get_user_agent (fs : FileSystem) (w : World) (opt : Nat)
    (hp : (w.heap opt).ProxyFile = []) (hc : (w.heap opt).CookieDir = []) :
    ∃ w2 c, NewClient fs w opt = some (w2, Except.ok c) ∧
      ∀ (NewRequest : GoString → GoString → Except GoError Request)
        (url referer : GoString) (req : Request),
        NewRequest (bytes "GET") url = Except.ok req →
        ∃ req2,
          (∀ (ρ : Type) (Do : Request → ρ),
            Client.Get NewRequest Do w2 c url referer = Except.ok (Do req2)) ∧
          req2.Header (bytes "User-Agent") =
            [if (w.heap opt).UserAgent = [] then bytes "fetch" else (w.heap opt).UserAgent] := by
  by_cases hu : (w.heap opt).UserAgent = []
  · refine ⟨{ w with heap := fun a =>
        if a = opt then { w.heap opt with UserAgent := defaultUserAgent } else w.heap a },
      ⟨opt⟩, ?_, ?_⟩
    · simp [NewClient, hp, hc, hu]
    · intro NewRequest url referer req hreq
      refine ⟨(if referer.length > 0 then req.setHeader (bytes "Referer") referer
          else req).setHeader (bytes "User-Agent") defaultUserAgent, ?_, ?_⟩
      · intro ρ Do
        have hd : (defaultUserAgent != []) = true := by decide
        simp [Client.Get, hreq, hd]
      · simp [Request.setHeader, hu, defaultUserAgent]
  · refine ⟨w, ⟨opt⟩, ?_, ?_⟩
    · simp [NewClient, hp, hc, hu]
    · intro NewRequest url referer req hreq
      refine ⟨(if referer.length > 0 then req.setHeader (bytes "Referer") referer
          else req).setHeader (bytes "User-Agent") (w.heap opt).UserAgent, ?_, ?_⟩
      · intro ρ Do
        simp [Client.Get, hreq, hu]
      · simp [Request.setHeader, hu]

/-- Witness of C10: the `Options` object with all fields empty. -/
theorem NewClient_Get_user_agent_witness :
    (sampleWorld.heap 0).ProxyFile = [] ∧ (sampleWorld.heap 0).CookieDir = [] ∧
    ∃ w2 c, NewClient [] sampleWorld 0 = some (w2, Except.ok c) ∧
      ∀ (NewRequest : GoString → GoString → Except GoError Request)
        (url referer : GoString) (req : Request),
        NewRequest (bytes "GET") url = Except.ok req →
        ∃ req2,
          (∀ (ρ : Type) (Do : Request → ρ),
            Client.Get NewRequest Do w2 c url referer = Except.ok (Do req2)) ∧
          req2.Header (bytes "User-Agent") =
            [if (sampleWorld.heap 0).UserAgent = [] then bytes "fetch"
              else (sampleWorld.heap 0).UserAgent] :=
  ⟨rfl, rfl, NewClient_Get_user_agent [] sampleWorld 0 rfl rfl⟩

/-! ## Theorems: algebra of the domain extractor -/

/-- A string with at least two `.` splits at its last two `.`. -/
theorem exists_two_labels (v : GoString) (hc : 2 ≤ v.count 46) :
    ∃ pre a b, v = pre ++ 46 :: (a ++ 46 :: b) ∧ (46 : UInt8) ∉ a ∧ (46 : UInt8) ∉ b := by
  have hm : (46 : UInt8) ∈ v := List.count_pos_iff.mp (by omega)
  obtain ⟨s, b, e, hb⟩ := exists_last_split v 46 hm
  have cb : b.count 46 = 0 := List.count_eq_zero_of_not_mem hb
  have hm2 : (46 : UInt8) ∈ s := by
    apply List.count_pos_iff.mp
    rw [e, List.count_append, List.count_cons_self, cb] at hc
    omega
  obtain ⟨pre, a, e2, ha⟩ := exists_last_split s 46 hm2
  exact ⟨pre, a, b, by rw [e, e2]; simp, ha, hb⟩

/-- A string with exactly one `.` splits at it. -/
theorem exists_one_label (v : GoString) (hc : v.count 46 = 1) :
    ∃ a b, v = a ++ 46 :: b ∧ (46 : UInt8) ∉ a ∧ (46 : UInt8) ∉ b := by
  have hm : (46 : UInt8) ∈ v := List.count_pos_iff.mp (by omega)
  obtain ⟨a, b, e, hb⟩ := exists_last_split v 46 hm
  refine ⟨a, b, e, ?_, hb⟩
  intro m
  have c1 : 0 < a.count 46 := List.count_pos_iff.mpr m
  rw [e, List.count_append, List.count_cons_self] at hc
  omega

/-- On a string without `/` the result of `getDomain` has no `/` and at most
one `.`. -/
theorem getDomain_result (v : GoString) (hs : (47 : UInt8) ∉ v) :
    (47 : UInt8) ∉ getDomain v ∧ (getDomain v).count 46 ≤ 1 := by
  by_cases hc : v.count 46 ≤ 1
  · rw [getDomain_one_label v hs hc]
    exact ⟨hs, hc⟩
  · obtain ⟨pre, a, b, e, ha, hb⟩ := exists_two_labels v (by omega)
    have hs2 : (47 : UInt8) ∉ pre ++ 46 :: (a ++ 46 :: b) := e ▸ hs
    rw [e, getDomain_two_labels pre a b hs2 ha hb]
    constructor
    · intro m
      exact hs2 (List.mem_append_right _ (List.mem_cons_of_mem _ m))
    · rw [List.count_append, List.count_cons_self, List.count_eq_zero_of_not_mem ha,
        List.count_eq_zero_of_not_mem hb]

/-- Claim C15: subdomains share one cookie key.  For every `h` that contains no
`/` (byte 47) and at least one `.` (byte 46), and every `x` that contains no
`/`, `getDomain (x ++ "." ++ h) = getDomain h`. -/
theorem getDomain_subdomain (h x : GoString) (hh : (47 : UInt8) ∉ h)
    (hd : (46 : UInt8) ∈ h) (hx : (47 : UInt8) ∉ x) :
    getDomain (x ++ bytes "." ++ h) = getDomain h := by
  have e0 : x ++ bytes "." ++ h = x ++ 46 :: h := by rw [bytes_dot]; simp
  have hs : (47 : UInt8) ∉ x ++ 46 :: h := by
    intro m
    rcases List.mem_append.mp m with m | m
    · exact hx m
    · rcases List.mem_cons.mp m with m | m
      · exact absurd m (by decide)
      · exact hh m
  rw [e0]
  have hpos : 0 < h.count 46 := List.count_pos_iff.mpr hd
  by_cases hc : h.count 46 ≤ 1
  · obtain ⟨a, b, e, ha, hb⟩ := exists_one_label h (by omega)
    rw [getDomain_one_label h hh hc]
    rw [e] at hs ⊢
    exact getDomain_two_labels x a b hs ha hb
  · obtain ⟨pre, a, b, e, ha, hb⟩ := exists_two_labels h (by omega)
    have hh2 : (47 : UInt8) ∉ pre ++ 46 :: (a ++ 46 :: b) := e ▸ hh
    have e2 : x ++ 46 :: (pre ++ 46 :: (a ++ 46 :: b)) =
        (x ++ 46 :: pre) ++ 46 :: (a ++ 46 :: b) := by simp
    rw [e] at hs ⊢
    rw [getDomain_two_labels pre a b hh2 ha hb, e2]
    exact getDomain_two_labels (x ++ 46 :: pre) a b (e2 ▸ hs) ha hb

/-- Witness of C15: `www` in front of `shop.example.com`. -/
theorem getDomain_subdomain_witness :
    (47 : UInt8) ∉ bytes "shop.example.com" ∧ (46 : UInt8) ∈ bytes "shop.example.com" ∧
    (47 : UInt8) ∉ bytes "www" ∧
    getDomain (bytes "www" ++ bytes "." ++ bytes "shop.example.com") =
      getDomain (bytes "shop.example.com") ∧
    getDomain (bytes "shop.example.com") = bytes "example.com" :=
  ⟨by decide, by decide, by decide,
    getDomain_subdomain (bytes "shop.example.com") (bytes "www") (by decide) (by decide)
      (by decide),
    by decide⟩

/-- Claim C16: `getDomain` is idempotent on every input, and its result never
contains `/` (byte 47) and contains at most one `.` (byte 46). -/
theorem getDomain_idempotent (s : GoString) :
    getDomain (getDomain s) = getDomain s ∧ (47 : UInt8) ∉ getDomain s ∧
      (getDomain s).count 46 ≤ 1 := by
  have hr := getDomain_result _
    (not_mem_takeWhile_ne (if Index s (bytes "http://") ≠ -1 then s.drop 7 else s) 47)
  rw [← getDomain_eq_cut s] at hr
  exact ⟨getDomain_one_label _ hr.1 hr.2, hr.1, hr.2⟩

/-! ## Theorems: observed selection and cookie scoping -/

/-- Every sequential call on a non-empty list returns the parse of the first
entry, whatever the cursor is. -/
theorem ProxyList.calls_cons (Parse : GoString → Except GoError URL) (s : GoString)
    (t : List GoString) (k : Nat) (i : Int) :
    ProxyList.calls Parse k ⟨s :: t, i⟩ = List.replicate k ((Parse s).map some) := by
  induction k generalizing i with
  | zero => rfl
  | succ k ih =>
    have e : ProxyList.calls Parse (k + 1) ⟨s :: t, i⟩ =
        (Parse s).map some ::
          ProxyList.calls Parse k ⟨s :: t,
            if wrapInt (i + 1) ≥ ((s :: t).length : Int) then 0 else wrapInt (i + 1)⟩ := rfl
    rw [e, ih, List.replicate_succ]

/-- Claim C12: observed selection behaviour.  For every `ProxyList` with a
non-empty list `s :: t` of length `n` and cursor `i` with `0 ≤ i < n`,
`getProxy` returns the parse of the first entry `s` whatever `i` is, leaves the
list unchanged and sets the cursor to `(i + 1) mod n`; hence every sequential
call returns the same proxy.  The hypothesis `hlen` says that the length fits a
Go `int`, as the length of every Go slice does. -/
theorem ProxyList.getProxy_observed (Parse : GoString → Except GoError URL) (s : GoString)
    (t : List GoString) (i : Int) (h0 : 0 ≤ i) (h1 : i < ((s :: t).length : Int))
    (hlen : (s :: t).length < 2 ^ 63) :
    ProxyList.getProxy Parse ⟨s :: t, i⟩ =
      (⟨s :: t, (i + 1) % ((s :: t).length : Int)⟩, (Parse s).map some) ∧
    ∀ k, ProxyList.calls Parse k ⟨s :: t, i⟩ = List.replicate k ((Parse s).map some) := by
  refine ⟨?_, fun k => ProxyList.calls_cons Parse s t k i⟩
  have hl : ((s :: t).length : Int) < 2 ^ 63 := by exact_mod_cast hlen
  have hw : wrapInt (i + 1) = i + 1 := wrapInt_small _ (by omega) (by omega)
  have e : ProxyList.getProxy Parse ⟨s :: t, i⟩ =
      (⟨s :: t, if wrapInt (i + 1) ≥ ((s :: t).length : Int) then 0 else wrapInt (i + 1)⟩,
        (Parse s).map some) := rfl
  rw [e, hw]
  by_cases hge : i + 1 ≥ ((s :: t).length : Int)
  · have hn : i + 1 = ((s :: t).length : Int) := by omega
    rw [if_pos hge, hn, Int.emod_self]
  · rw [if_neg hge, Int.emod_eq_of_lt (by omega) (by omega)]

/-- Witness of C12: the list `p1`, `p2`, `p3` with the cursor at its last
index 2; the cursor wraps to 0 and the proxy is the parse of `p1`. -/
theorem ProxyList.getProxy_observed_witness :
    (0 : Int) ≤ 2 ∧ (2 : Int) < (([bytes "p1", bytes "p2", bytes "p3"].length : Nat) : Int) ∧
    [bytes "p1", bytes "p2", bytes "p3"].length < 2 ^ 63 ∧
    ProxyList.getProxy parsePath ⟨[bytes "p1", bytes "p2", bytes "p3"], 2⟩ =
      (⟨[bytes "p1", bytes "p2", bytes "p3"],
          (2 + 1) % (([bytes "p1", bytes "p2", bytes "p3"].length : Nat) : Int)⟩,
        (parsePath (bytes "p1")).map some) ∧
    ∀ k, ProxyList.calls parsePath k ⟨[bytes "p1", bytes "p2", bytes "p3"], 2⟩ =
      List.replicate k ((parsePath (bytes "p1")).map some) :=
  ⟨by decide, by decide, by decide,
    ProxyList.getProxy_observed parsePath (bytes "p1") [bytes "p2", bytes "p3"] 2
      (by decide) (by decide) (by decide)⟩

/-- Claim C14: cookie scoping is decided by `getDomain` alone.  For every store
with an initialised map `m`, all URLs `u1` and `u2` and every cookie sequence
`cs`, `SetCookies(u1, cs)` succeeds and afterwards `Cookies(u2)` returns `cs`
when `getDomain(u1.Host) = getDomain(u2.Host)` and otherwise exactly what
`Cookies(u2)` returned before.  `Cookies` is a map read and returns no new
store: it never changes the store. -/
theorem CookieSet.scoped_by_getDomain (m : CookieMap) (u1 u2 : URL) (cs : List Cookie) :
    ∃ s, CookieSet.SetCookies ⟨some m⟩ u1 cs = some s ∧
      s.Cookies u2 =
        if getDomain u1.Host = getDomain u2.Host then cs
        else CookieSet.Cookies ⟨some m⟩ u2 := by
  refine ⟨⟨some (m.set (getDomain u1.Host) cs)⟩, rfl, ?_⟩
  by_cases h : getDomain u1.Host = getDomain u2.Host
  · simp [CookieSet.Cookies, CookieSet.get, CookieMap.set, h]
  · have h2 : ¬ getDomain u2.Host = getDomain u1.Host := fun e => h e.symm
    simp [CookieSet.Cookies, CookieSet.get, CookieMap.set, h, h2]

/-! ## Theorems: the `Options` object after `NewClient` -/

/-- Claim C13 fails as stated: for the `Options` object with all fields empty,
`NewClient` succeeds and the `UserAgent` field afterwards is `fetch`, not the
empty string it was before. -/
theorem NewClient_writes_user_agent :
    ∃ w2 c, NewClient [] sampleWorld 0 = some (w2, Except.ok c) ∧
      (sampleWorld.heap 0).UserAgent = [] ∧
      (w2.heap 0).UserAgent = bytes "fetch" ∧
      (w2.heap 0).UserAgent ≠ (sampleWorld.heap 0).UserAgent := by
  refine ⟨⟨sampleWorld.defaultProxyList, sampleWorld.defaultCookieSet,
    fun a => if a = 0 then ⟨defaultUserAgent, [], []⟩ else sampleWorld.heap a⟩,
    ⟨0⟩, rfl, rfl, rfl, by decide⟩

/-- The heap after `NewClient`: unchanged when an error is returned; when a
client is returned, only the `UserAgent` of the `Options` object passed in may
differ, and only by the default written into an empty field. -/
theorem NewClient_heap (fs : FileSystem) (w w2 : World) (opt : Nat)
    (r : Except GoError Client) (h : NewClient fs w opt = some (w2, r)) :
    (∃ err, r = Except.error err ∧ w2.heap = w.heap) ∨
    (∃ c, r = Except.ok c ∧
      w2.heap = if (w.heap opt).UserAgent = [] then
          fun a => if a = opt then { (w.heap opt) with UserAgent := defaultUserAgent }
                   else w.heap a
        else w.heap) := by
  unfold NewClient at h
  simp only [] at h
  split at h
  · rename_i w1 err heq
    simp only [Option.some.injEq, Prod.mk.injEq] at h
    obtain ⟨hw, hr⟩ := h
    left
    refine ⟨err, hr.symm, ?_⟩
    subst hw
    split at heq
    · simp only [Prod.mk.injEq] at heq
      rw [← heq.1]
    · simp only [Prod.mk.injEq] at heq
      rw [← heq.1]
  · rename_i w1 heq
    have hw1 : w1.heap = w.heap := by
      split at heq
      · simp only [Prod.mk.injEq] at heq
        rw [← heq.1]
      · simp only [Prod.mk.injEq] at heq
        rw [← heq.1]
    have hwc : ∀ x : World × Option GoError,
        (if ((w1.heap opt).CookieDir != []) = true then
          Option.map (fun r => (({ w1 with defaultCookieSet := r.1 } : World), r.2))
            (CookieSet.load fs w1.defaultCookieSet (w1.heap opt).CookieDir)
        else some (w1, none)) = some x → x.1.heap = w.heap := by
      intro x hx
      split at hx
      · obtain ⟨a, _, ha⟩ := Option.map_eq_some'.mp hx
        rw [← ha, ← hw1]
      · simp only [Option.some.injEq] at hx
        rw [← hx, ← hw1]
    split at h
    · simp at h
    · rename_i wc err heq2
      simp only [Option.some.injEq, Prod.mk.injEq] at h
      left
      refine ⟨err, h.2.symm, ?_⟩
      rw [← h.1]
      exact hwc _ heq2
    · rename_i wc heq2
      have hh := hwc _ heq2
      simp only [Option.some.injEq, Prod.mk.injEq] at h
      right
      refine ⟨⟨opt⟩, h.2.symm, ?_⟩
      rw [← h.1]
      simp only at hh
      by_cases hu : (w.heap opt).UserAgent = []
      · have hu2 : (wc.heap opt).UserAgent = [] := by rw [hh]; exact hu
        simp [hu, hu2, hh]
      · have hu2 : ¬ (wc.heap opt).UserAgent = [] := by rw [hh]; exact hu
        simp [hu, hu2, hh]

/-- Claim C13, amended: for every `Options` object passed to `NewClient`, after
`NewClient` returns the fields `ProxyFile` and `CookieDir` are equal to their
values before the call; `UserAgent` is equal to its value before when that was
non-empty or when an error is returned, and is the default `fetch` when it was
empty and a client is returned. -/
theorem NewClient_options_after (fs : FileSystem) (w w2 : World) (opt : Nat)
    (r : Except GoError Client) (h : NewClient fs w opt = some (w2, r)) :
    (w2.heap opt).ProxyFile = (w.heap opt).ProxyFile ∧
    (w2.heap opt).CookieDir = (w.heap opt).CookieDir ∧
    ((w.heap opt).UserAgent ≠ [] → (w2.heap opt).UserAgent = (w.heap opt).UserAgent) ∧
    (∀ err, r = Except.error err → (w2.heap opt).UserAgent = (w.heap opt).UserAgent) ∧
    (∀ c, r = Except.ok c → (w.heap opt).UserAgent = [] →
      (w2.heap opt).UserAgent = bytes "fetch") := by
  rcases NewClient_heap fs w w2 opt r h with ⟨err, hr, hh⟩ | ⟨c, hr, hh⟩
  · rw [hh]
    refine ⟨rfl, rfl, fun _ => rfl, fun _ _ => rfl, ?_⟩
    intro c hc
    rw [hr] at hc
    cases hc
  · by_cases hu : (w.heap opt).UserAgent = []
    · rw [hh, if_pos hu]
      refine ⟨by simp, by simp, fun hne => absurd hu hne, ?_, fun _ _ _ => by simp [defaultUserAgent]⟩
      intro err he
      rw [hr] at he
      cases he
    · rw [hh, if_neg hu]
      exact ⟨rfl, rfl, fun _ => rfl, fun _ _ => rfl, fun _ _ hu2 => absurd hu2 hu⟩

/-- Witness of C13, amended: the `Options` object with all fields empty. -/
theorem NewClient_options_after_witness :
    ∃ w2 c, NewClient [] sampleWorld 0 = some (w2, Except.ok c) ∧
      (w2.heap 0).ProxyFile = (sampleWorld.heap 0).ProxyFile ∧
      (w2.heap 0).CookieDir = (sampleWorld.heap 0).CookieDir ∧
      (sampleWorld.heap 0).UserAgent = [] ∧
      (w2.heap 0).UserAgent = bytes "fetch" :=
  have h : NewClient [] sampleWorld 0 =
      some (⟨sampleWorld.defaultProxyList, sampleWorld.defaultCookieSet,
          fun a => if a = 0 then ⟨defaultUserAgent, [], []⟩ else sampleWorld.heap a⟩,
        Except.ok ⟨0⟩) := rfl
  ⟨_, _, h, (NewClient_options_after [] sampleWorld _ 0 _ h).1,
    (NewClient_options_after [] sampleWorld _ 0 _ h).2.1, rfl,
    (NewClient_options_after [] sampleWorld _ 0 _ h).2.2.2.2 ⟨0⟩ rfl rfl⟩

/-! ## Theorems: concurrent callers of `getProxy` -/

/-- One goroutine that runs `getProxy` alone, statement by statement, ends where
the sequential embedding `ProxyList.getProxy` ends. -/
theorem Shared.exec_single (Parse : GoString → Except GoError URL) (pl : ProxyList) :
    Shared.exec Parse (Shared.init pl 1) [0, 0, 0, 0, 0, 0] =
      ⟨(pl.getProxy Parse).1, false, [Goroutine.done (pl.getProxy Parse).2]⟩ := by
  obtain ⟨list, index⟩ := pl
  cases list with
  | nil => rfl
  | cons s t =>
    have h4 : Shared.exec Parse (Shared.init ⟨s :: t, index⟩ 1) [0, 0, 0, 0] =
        ⟨⟨s :: t, wrapInt (index + 1)⟩, true, [Goroutine.bumped s]⟩ := rfl
    have h6 : Shared.exec Parse (Shared.init ⟨s :: t, index⟩ 1) [0, 0, 0, 0, 0, 0] =
        Shared.step Parse (Shared.step Parse
          ⟨⟨s :: t, wrapInt (index + 1)⟩, true, [Goroutine.bumped s]⟩ 0) 0 := by
      have ha : Shared.exec Parse (Shared.init ⟨s :: t, index⟩ 1) ([0, 0, 0, 0] ++ [0, 0]) =
          Shared.exec Parse (Shared.exec Parse (Shared.init ⟨s :: t, index⟩ 1) [0, 0, 0, 0])
            [0, 0] := by
        simp only [Shared.exec, List.foldl_append]
      have hb : ([0, 0, 0, 0, 0, 0] : List Nat) = [0, 0, 0, 0] ++ [0, 0] := rfl
      rw [hb, ha, h4]
      simp only [Shared.exec, List.foldl]
    rw [h6]
    by_cases hc : wrapInt (index + 1) ≥ ((s :: t).length : Int)
    · have e : ProxyList.getProxy Parse ⟨s :: t, index⟩ =
          (⟨s :: t, 0⟩, (Parse s).map some) := by
        simp only [ProxyList.getProxy, if_pos hc]
      have h5 : Shared.step Parse
          ⟨⟨s :: t, wrapInt (index + 1)⟩, true, [Goroutine.bumped s]⟩ 0 =
          ⟨⟨s :: t, 0⟩, true, [Goroutine.wrapped s]⟩ := by
        show (⟨if wrapInt (index + 1) ≥ ((s :: t).length : Int) then ⟨s :: t, 0⟩
          else ⟨s :: t, wrapInt (index + 1)⟩, true, [Goroutine.wrapped s]⟩ : Shared) = _
        rw [if_pos hc]
      rw [h5, e]
      rfl
    · have e : ProxyList.getProxy Parse ⟨s :: t, index⟩ =
          (⟨s :: t, wrapInt (index + 1)⟩, (Parse s).map some) := by
        simp only [ProxyList.getProxy, if_neg hc]
      have h5 : Shared.step Parse
          ⟨⟨s :: t, wrapInt (index + 1)⟩, true, [Goroutine.bumped s]⟩ 0 =
          ⟨⟨s :: t, wrapInt (index + 1)⟩, true, [Goroutine.wrapped s]⟩ := by
        show (⟨if wrapInt (index + 1) ≥ ((s :: t).length : Int) then ⟨s :: t, 0⟩
          else ⟨s :: t, wrapInt (index + 1)⟩, true, [Goroutine.wrapped s]⟩ : Shared) = _
        rw [if_neg hc]
      rw [h5, e]
      rfl

theorem List.forall_mem_set {α : Type} (P : α → Prop) (l : List α) (i : Nat) (b : α)
    (hl : ∀ a ∈ l, P a) (hb : P b) : ∀ a ∈ l.set i b, P a := by
  intro a ha
  rcases List.mem_or_eq_of_mem_set ha with h | h
  · exact hl a h
  · rw [h]; exact hb

/-- One step of any goroutine keeps the list and keeps every goroutine in
order. -/
theorem Shared.step_good (Parse : GoString → Except GoError URL) (s0 : GoString)
    (t : List GoString) (st : Shared) (i : Nat) (hl : st.pl.list = s0 :: t)
    (hg : ∀ g ∈ st.goroutines, g.Good Parse s0) :
    (st.step Parse i).pl.list = s0 :: t ∧
      ∀ g ∈ (st.step Parse i).goroutines, g.Good Parse s0 := by
  unfold Shared.step
  split
  · exact ⟨hl, hg⟩
  · split
    · exact ⟨hl, hg⟩
    · exact ⟨hl, List.forall_mem_set _ _ _ _ hg trivial⟩
  · have hlen : (st.pl.list.length == 0) = false := by rw [hl]; simp
    rw [hlen]
    exact ⟨hl, List.forall_mem_set _ _ _ _ hg trivial⟩
  · split
    · rename_i hnil
      rw [hl] at hnil
      cases hnil
    · rename_i s rest hcons
      rw [hl] at hcons
      have hs0 : s = s0 := by
        cases hcons
        rfl
      exact ⟨hl, List.forall_mem_set _ _ _ _ hg hs0⟩
  · rename_i s hs
    have hm : Goroutine.read s ∈ st.goroutines := List.getElem?_mem hs
    have hs0 : s = s0 := hg _ hm
    exact ⟨hl, List.forall_mem_set _ _ _ _ hg hs0⟩
  · rename_i s hs
    have hm : Goroutine.bumped s ∈ st.goroutines := List.getElem?_mem hs
    have hs0 : s = s0 := hg _ hm
    refine ⟨?_, List.forall_mem_set _ _ _ _ hg hs0⟩
    simp only
    split
    · exact hl
    · exact hl
  · rename_i s hs
    have hm : Goroutine.wrapped s ∈ st.goroutines := List.getElem?_mem hs
    have hs0 : s = s0 := hg _ hm
    refine ⟨hl, List.forall_mem_set _ _ _ _ hg ?_⟩
    rw [hs0]
    rfl
  · exact ⟨hl, hg⟩
  · exact ⟨hl, hg⟩

/-- Every schedule keeps the list and keeps every goroutine in order. -/
theorem Shared.exec_good (Parse : GoString → Except GoError URL) (s0 : GoString)
    (t : List GoString) (sched : List Nat) (st : Shared) (hl : st.pl.list = s0 :: t)
    (hg : ∀ g ∈ st.goroutines, g.Good Parse s0) :
    (st.exec Parse sched).pl.list = s0 :: t ∧
      ∀ g ∈ (st.exec Parse sched).goroutines, g.Good Parse s0 := by
  induction sched generalizing st with
  | nil => exact ⟨hl, hg⟩
  | cons i rest ih =>
    have h := Shared.step_good Parse s0 t st i hl hg
    exact ih (st.step Parse i) h.1 h.2

/-- A step keeps the number of goroutines. -/
theorem Shared.step_goroutines (Parse : GoString → Except GoError URL) (st : Shared) (i : Nat) :
    (st.step Parse i).goroutines.length = st.goroutines.length := by
  unfold Shared.step
  split <;> try rfl
  all_goals (try split) <;> simp

theorem Shared.exec_length (Parse : GoString → Except GoError URL) (sched : List Nat)
    (st : Shared) : (st.exec Parse sched).goroutines.length = st.goroutines.length := by
  induction sched generalizing st with
  | nil => rfl
  | cons i rest ih =>
    have h := ih (st.step Parse i)
    rw [Shared.step_goroutines] at h
    exact h

/-- Replacing goroutine `i`, which stood at `g`, changes the number of
goroutines inside the critical section by what `g` and its successor count. -/
theorem Shared.countP_inside_set (l : List Goroutine) (i : Nat) (g g2 : Goroutine)
    (h : l[i]? = some g) :
    (if g.inside then 1 else 0) ≤ l.countP Goroutine.inside ∧
    (l.set i g2).countP Goroutine.inside =
      l.countP Goroutine.inside - (if g.inside then 1 else 0) +
        (if g2.inside then 1 else 0) := by
  obtain ⟨hlt, hg⟩ := List.getElem?_eq_some_iff.mp h
  have h1 := List.countP_set Goroutine.inside l i g2 hlt
  have h2 := List.boole_getElem_le_countP Goroutine.inside l i hlt
  rw [hg] at h1 h2
  exact ⟨h2, h1⟩

/-- Mutual exclusion is kept by every step: the mutex is held exactly when one
goroutine is inside the critical section, and never more than one is. -/
theorem Shared.step_mutex (Parse : GoString → Except GoError URL) (st : Shared) (i : Nat)
    (h : st.goroutines.countP Goroutine.inside = if st.mutex then 1 else 0) :
    (st.step Parse i).goroutines.countP Goroutine.inside =
      if (st.step Parse i).mutex then 1 else 0 := by
  unfold Shared.step
  split
  · exact h
  · rename_i hs
    have hc := Shared.countP_inside_set st.goroutines i _ Goroutine.locked hs
    simp only [Goroutine.inside, Bool.false_eq_true, if_false, if_true, eq_self_iff_true] at hc
    by_cases hm : st.mutex = true
    · rw [if_pos hm]
      exact h
    · rw [if_neg hm] at h ⊢
      simp only [Goroutine.inside, Bool.false_eq_true, if_false, if_true, eq_self_iff_true]
      omega
  · rename_i hs
    have hc0 := Shared.countP_inside_set st.goroutines i _ (Goroutine.done (Except.ok none)) hs
    simp only [Goroutine.inside, Bool.false_eq_true, if_false, if_true, eq_self_iff_true] at hc0
    have hc1 := Shared.countP_inside_set st.goroutines i _ Goroutine.nonEmpty hs
    simp only [Goroutine.inside, Bool.false_eq_true, if_false, if_true, eq_self_iff_true] at hc1
    have hm : st.mutex = true := by
      by_contra hm
      rw [if_neg hm] at h
      omega
    rw [if_pos hm] at h
    split
    · simp only [Goroutine.inside, Bool.false_eq_true, if_false, if_true, eq_self_iff_true]
      omega
    · simp only [Goroutine.inside, Bool.false_eq_true, if_false, if_true, eq_self_iff_true]
      omega
  · rename_i hs
    have hc0 := Shared.countP_inside_set st.goroutines i _ Goroutine.panicked hs
    simp only [Goroutine.inside, Bool.false_eq_true, if_false, if_true, eq_self_iff_true] at hc0
    have hm : st.mutex = true := by
      by_contra hm
      rw [if_neg hm] at h
      omega
    rw [if_pos hm] at h
    split
    · simp only [Goroutine.inside, Bool.false_eq_true, if_false, if_true, eq_self_iff_true]
      omega
    · rename_i s rest hcons
      have hc1 := Shared.countP_inside_set st.goroutines i _ (Goroutine.read s) hs
      simp only [Goroutine.inside, Bool.false_eq_true, if_false, if_true, eq_self_iff_true] at hc1
      simp only [Goroutine.inside, Bool.false_eq_true, if_false, if_true, eq_self_iff_true]
      first
        | omega
        | (rw [if_pos hm]; omega)
  · rename_i s hs
    have hc0 := Shared.countP_inside_set st.goroutines i _ (Goroutine.bumped s) hs
    simp only [Goroutine.inside, Bool.false_eq_true, if_false, if_true, eq_self_iff_true] at hc0
    have hm : st.mutex = true := by
      by_contra hm
      rw [if_neg hm] at h
      omega
    rw [if_pos hm] at h
    simp only [Goroutine.inside, Bool.false_eq_true, if_false, if_true, eq_self_iff_true]
    first
      | omega
      | (rw [if_pos hm]; omega)
  · rename_i s hs
    have hc0 := Shared.countP_inside_set st.goroutines i _ (Goroutine.wrapped s) hs
    simp only [Goroutine.inside, Bool.false_eq_true, if_false, if_true, eq_self_iff_true] at hc0
    have hm : st.mutex = true := by
      by_contra hm
      rw [if_neg hm] at h
      omega
    rw [if_pos hm] at h
    simp only [Goroutine.inside, Bool.false_eq_true, if_false, if_true, eq_self_iff_true]
    first
      | omega
      | (rw [if_pos hm]; omega)
  · rename_i s hs
    have hc0 := Shared.countP_inside_set st.goroutines i _ (Goroutine.done ((Parse s).map some)) hs
    simp only [Goroutine.inside, Bool.false_eq_true, if_false, if_true, eq_self_iff_true] at hc0
    have hm : st.mutex = true := by
      by_contra hm
      rw [if_neg hm] at h
      omega
    rw [if_pos hm] at h
    simp only [Goroutine.inside, Bool.false_eq_true, if_false, if_true, eq_self_iff_true]
    omega
  · exact h
  · exact h

/-- Mutual exclusion in every schedule of `n` callers: at most one goroutine is
inside the critical section, and one is exactly when the mutex is held. -/
theorem Shared.exec_mutex (Parse : GoString → Except GoError URL) (pl : ProxyList) (n : Nat)
    (sched : List Nat) :
    (Shared.exec Parse (Shared.init pl n) sched).goroutines.countP Goroutine.inside =
      if (Shared.exec Parse (Shared.init pl n) sched).mutex then 1 else 0 := by
  have key : ∀ (st : Shared),
      st.goroutines.countP Goroutine.inside = (if st.mutex then 1 else 0) →
      (st.exec Parse sched).goroutines.countP Goroutine.inside =
        if (st.exec Parse sched).mutex then 1 else 0 := by
    induction sched with
    | nil => intro st h; exact h
    | cons i rest ih =>
      intro st h
      exact ih (st.step Parse i) (Shared.step_mutex Parse st i h)
  apply key
  simp [Shared.init, List.countP_replicate, Goroutine.inside]

/-- Claim C11: concurrent proxy selection.  For every `ProxyList` with a
non-empty list, every number `n` of goroutines that call `getProxy` and every
schedule of their statements, no goroutine panics, so the read `pl.list[0]`,
the only index into the list, is never out of range; the list is left as it
was; and every proxy a goroutine has returned is the parse of an entry of the
list. -/
theorem Shared.concurrent_getProxy_safe (Parse : GoString → Except GoError URL)
    (pl : ProxyList) (n : Nat) (sched : List Nat) (hne : pl.list ≠ []) :
    (Shared.exec Parse (Shared.init pl n) sched).pl.list = pl.list ∧
    (Shared.exec Parse (Shared.init pl n) sched).goroutines.length = n ∧
    ∀ g ∈ (Shared.exec Parse (Shared.init pl n) sched).goroutines,
      g ≠ Goroutine.panicked ∧
      ∀ r, g = Goroutine.done r → ∃ e ∈ pl.list, r = (Parse e).map some := by
  cases hl : pl.list with
  | nil => exact absurd hl hne
  | cons s0 t =>
    have hinit : ∀ g ∈ (Shared.init pl n).goroutines, g.Good Parse s0 := by
      intro g hg
      have e : g = Goroutine.start := List.eq_of_mem_replicate hg
      rw [e]
      trivial
    have h := Shared.exec_good Parse s0 t sched (Shared.init pl n) hl hinit
    refine ⟨h.1, ?_, ?_⟩
    · rw [Shared.exec_length]
      simp [Shared.init]
    · intro g hg
      have hgood := h.2 g hg
      constructor
      · intro e
        rw [e] at hgood
        exact hgood
      · intro r e
        rw [e] at hgood
        exact ⟨s0, List.mem_cons_self s0 t, hgood⟩

set_option maxRecDepth 100000 in
/-- Witness of C11: two goroutines on the list `p1`, `p2`, `p3`; the second
asks for the mutex while the first holds it.  At the end both have returned
the parse of `p1`. -/
theorem Shared.concurrent_getProxy_safe_witness :
    (⟨[bytes "p1", bytes "p2", bytes "p3"], 0⟩ : ProxyList).list ≠ [] ∧
    (Shared.exec parsePath (Shared.init ⟨[bytes "p1", bytes "p2", bytes "p3"], 0⟩ 2)
        sampleSchedule).goroutines =
      [Goroutine.done ((parsePath (bytes "p1")).map some),
        Goroutine.done ((parsePath (bytes "p1")).map some)] ∧
    ∀ g ∈ (Shared.exec parsePath (Shared.init ⟨[bytes "p1", bytes "p2", bytes "p3"], 0⟩ 2)
        sampleSchedule).goroutines,
      g ≠ Goroutine.panicked ∧
      ∀ r, g = Goroutine.done r →
        ∃ e ∈ (⟨[bytes "p1", bytes "p2", bytes "p3"], 0⟩ : ProxyList).list,
          r = (parsePath e).map some :=
  ⟨by simp, rfl,
    (Shared.concurrent_getProxy_safe parsePath ⟨[bytes "p1", bytes "p2", bytes "p3"], 0⟩ 2
      sampleSchedule (by simp)).2.2⟩

end Crawl
